import Mathlib

/-!
# StockChallenge: the matching engine of `main.cpp`

A shallow embedding of `Firm`, `Order` and `MatchingEngine`.

* `float` prices are rationals (`ℚ`); the products `price * flip` and the
  comparisons of prices are exact in `float`.
* `int` counters are `Int`; `uint16_t` firm ids are `Nat`.
* `std::set<Order>` is the list of its elements in iteration order (ascending
  for `Order::operator<`); `std::map<uint16_t, Firm>` is the list of its
  entries in iteration order (ascending key).
* an iterator is a position in that list; `end()` is `none`.
* `totalBalance += amount` is embedded twice. `Firm.completeOrder`, and with it
  `onNewOrder`, `onModify`, `step` and `run`, add exactly: this is the engine
  with prices and balances as exact numbers. `Firm.completeOrderF32`, and with
  it `onNewOrderF32`, `onModifyF32`, `stepF32` and `runF32`, round the sum to
  binary32 as the `float` field does. The two engines have the same book, the
  same ledger entries and the same `liveOrders` and `filledOrders` after every
  message stream (`sameButBalance_run`); what is said about how much a balance
  changes, and about sums of balances, is stated for the engine that rounds.
-/

namespace StockChallenge

/-! ## Firm -/

/-- The class `Firm`: three counters. -/
structure Firm where
  liveOrders : Int
  filledOrders : Int
  totalBalance : ℚ
deriving DecidableEq

/-- The constructor `Firm()`: all counters zero. -/
def Firm.init : Firm := ⟨0, 0, 0⟩

/-- The method `Firm::newOrder`: `liveOrders++`. -/
def Firm.newOrder (f : Firm) : Firm :=
  ⟨f.liveOrders + 1, f.filledOrders, f.totalBalance⟩

/-- The method `Firm::cancelOrder`: `liveOrders--`. -/
def Firm.cancelOrder (f : Firm) : Firm :=
  ⟨f.liveOrders - 1, f.filledOrders, f.totalBalance⟩

/-- The method `Firm::completeOrder(amount)`, with the balance added exactly
(`Firm.completeOrderF32` below adds in `float`). -/
def Firm.completeOrder (amount : ℚ) (f : Firm) : Firm :=
  ⟨f.liveOrders - 1, f.filledOrders + 1, f.totalBalance + amount⟩

/-! ## Order -/

/-- The class `Order`. -/
structure Order where
  ID : Nat
  symbol : String
  price : ℚ
  side : Char
deriving DecidableEq

/-- The two-argument constructor `Order(firmId, symbol)`, used as a search
key. The source leaves `price` and `side` uninitialised; `operator<` never
reads them. -/
def Order.key (firmId : Nat) (symbol : String) : Order := ⟨firmId, symbol, 0, 'B'⟩

/-- The comparison `Order::operator<`, as `this < _s`. The `<` of `std::string`
is the lexicographic comparison of the two character sequences. -/
def Order.lt (this _s : Order) : Bool :=
  if _s.ID = this.ID then decide (_s.symbol.data < this.symbol.data)
  else decide (_s.ID < this.ID)

/-- Equivalence of keys in a `std::set`: neither is less than the other. -/
def Order.equiv (a b : Order) : Bool := !(a.lt b) && !(b.lt a)

/-! ## `std::set<Order>` -/

/-- The call `orderQueue.count(k)`: 1 when an equivalent element is stored. -/
def setCount (q : List Order) (k : Order) : Nat :=
  if q.any (fun x => x.equiv k) then 1 else 0

/-- Position of a new element: before the first stored element it is less than. -/
def insertPos (o : Order) : List Order → List Order
  | [] => [o]
  | x :: xs => if o.lt x then o :: x :: xs else x :: insertPos o xs

/-- The call `orderQueue.insert(o)`: nothing happens when an equivalent element
is stored. -/
def setInsert (q : List Order) (o : Order) : List Order :=
  if q.any (fun x => x.equiv o) then q else insertPos o q

/-- A loop `for (it = begin(); it != end(); it++) if (p(*it)) break;`:
the iterator (position and element) it stops at, `none` for `end()`. -/
def scan (p : Order → Bool) : List Order → Option (Nat × Order)
  | [] => none
  | x :: xs => if p x then some (0, x) else (scan p xs).map (fun r => (r.1 + 1, r.2))

/-! ## `std::map<uint16_t, Firm>` -/

/-- The call `FirmList.count(firmId)` as a truth value. -/
def mapCount (fl : List (Nat × Firm)) (firmId : Nat) : Bool :=
  fl.any (fun e => e.1 == firmId)

/-- Position of a new key in ascending key order. -/
def mapInsertPos (e : Nat × Firm) : List (Nat × Firm) → List (Nat × Firm)
  | [] => [e]
  | x :: xs => if e.1 < x.1 then e :: x :: xs else x :: mapInsertPos e xs

/-- The call `FirmList.insert(pair)`. -/
def mapInsert (fl : List (Nat × Firm)) (e : Nat × Firm) : List (Nat × Firm) :=
  if mapCount fl e.1 then fl else mapInsertPos e fl

/-- The map after `getFirm(firmId)`: the entry exists. -/
def getFirm (fl : List (Nat × Firm)) (firmId : Nat) : List (Nat × Firm) :=
  if !mapCount fl firmId then mapInsert fl (firmId, Firm.init) else fl

/-- The statement `getFirm(firmId).m()` for a method `m` of `Firm`: `getFirm`,
then the referenced entry is updated in place. -/
def callFirm (fl : List (Nat × Firm)) (firmId : Nat) (m : Firm → Firm) : List (Nat × Firm) :=
  (getFirm fl firmId).map (fun e => if e.1 = firmId then (e.1, m e.2) else e)

/-- The entry of a firm, when there is one. -/
def lookup (fl : List (Nat × Firm)) (firmId : Nat) : Option Firm :=
  (fl.find? (fun e => e.1 == firmId)).map Prod.snd

/-! ## MatchingEngine -/

/-- The class `MatchingEngine`. -/
structure MatchingEngine where
  FirmList : List (Nat × Firm)
  orderQueue : List Order
deriving DecidableEq

/-- A freshly constructed engine. -/
def MatchingEngine.empty : MatchingEngine := ⟨[], []⟩

/-- The local `flip` of `onNewOrder`. -/
def flip (side : Char) : Int := if side = 'B' then -1 else 1

/-- The loop condition of `onNewOrder`: same symbol, different side. -/
def isCounterparty (symbol : String) (side : Char) (curOrder : Order) : Bool :=
  curOrder.symbol == symbol && curOrder.side != side

/-- The loop condition of `onModify` and `onCancel`: same firm, same symbol. -/
def isOrderOf (firmId : Nat) (symbol : String) (curOrder : Order) : Bool :=
  curOrder.ID == firmId && curOrder.symbol == symbol

/-- The method `MatchingEngine::onNewOrder`. -/
def onNewOrder (me : MatchingEngine) (firmId : Nat) (symbol : String) (side : Char)
    (price : ℚ) : MatchingEngine :=
  if setCount me.orderQueue (Order.key firmId symbol) ≠ 0 then me
  else
    let fl1 := callFirm me.FirmList firmId Firm.newOrder
    match scan (isCounterparty symbol side) me.orderQueue with
    | none => ⟨fl1, setInsert me.orderQueue ⟨firmId, symbol, price, side⟩⟩
    | some (it, previousOrder) =>
      if previousOrder.price * (flip side : ℚ) < price * (flip side : ℚ) then
        ⟨fl1, setInsert me.orderQueue ⟨firmId, symbol, price, side⟩⟩
      else
        let fl2 := callFirm fl1 firmId (Firm.completeOrder (price * (flip side : ℚ)))
        let fl3 := callFirm fl2 previousOrder.ID
          (Firm.completeOrder (-price * (flip side : ℚ)))
        ⟨fl3, me.orderQueue.eraseIdx it⟩

/-- The method `MatchingEngine::onModify`. -/
def onModify (me : MatchingEngine) (firmId : Nat) (symbol : String) (price : ℚ) :
    MatchingEngine :=
  match scan (isOrderOf firmId symbol) me.orderQueue with
  | none => me
  | some (it, curOrder) =>
    let q1 := me.orderQueue.eraseIdx it
    let fl1 := callFirm me.FirmList firmId Firm.cancelOrder
    onNewOrder ⟨fl1, q1⟩ firmId symbol curOrder.side price

/-- The method `MatchingEngine::onCancel`. -/
def onCancel (me : MatchingEngine) (firmId : Nat) (symbol : String) : MatchingEngine :=
  match scan (isOrderOf firmId symbol) me.orderQueue with
  | none => me
  | some (it, _) =>
    let fl1 := callFirm me.FirmList firmId Firm.cancelOrder
    ⟨fl1, me.orderQueue.eraseIdx it⟩

/-- One message of the stream in `main`: `'N'`, `'M'` or `'C'`. -/
inductive Event where
  | N (firmId : Nat) (symbol : String) (side : Char) (price : ℚ)
  | M (firmId : Nat) (symbol : String) (price : ℚ)
  | C (firmId : Nat) (symbol : String)
deriving DecidableEq

/-- The `switch` in the loop of `main`. -/
def step (me : MatchingEngine) : Event → MatchingEngine
  | .N firmId symbol side price => onNewOrder me firmId symbol side price
  | .M firmId symbol price => onModify me firmId symbol price
  | .C firmId symbol => onCancel me firmId symbol

/-- The loop of `main` over a message stream. -/
def run (me : MatchingEngine) (msgStream : List Event) : MatchingEngine :=
  msgStream.foldl step me

/-- The states the engine can be in: those a finite message stream produces
from the freshly constructed engine. -/
def Reachable (me : MatchingEngine) : Prop := ∃ msgStream, run MatchingEngine.empty msgStream = me

/-! ## Observations -/

/-- The counters of a firm as `print` would show them; a firm without an entry
has the counters of `Firm()`. -/
def firmOf (fl : List (Nat × Firm)) (firmId : Nat) : Firm :=
  (lookup fl firmId).getD Firm.init

/-- Counter `liveOrders` of a firm; a firm without an entry counts as zero. -/
def liveOf (me : MatchingEngine) (firmId : Nat) : Int :=
  (firmOf me.FirmList firmId).liveOrders

/-- Counter `filledOrders` of a firm; a firm without an entry counts as zero. -/
def filledOf (me : MatchingEngine) (firmId : Nat) : Int :=
  (firmOf me.FirmList firmId).filledOrders

/-- Balance of a firm; a firm without an entry counts as zero. -/
def balanceOf (me : MatchingEngine) (firmId : Nat) : ℚ :=
  (firmOf me.FirmList firmId).totalBalance

/-- Number of orders in the book owned by a firm. -/
def ownedCount (me : MatchingEngine) (firmId : Nat) : Nat :=
  me.orderQueue.countP (fun o => o.ID == firmId)

/-- Number of orders in the book for a pair of firm and symbol. -/
def restingCount (me : MatchingEngine) (firmId : Nat) (symbol : String) : Nat :=
  me.orderQueue.countP (isOrderOf firmId symbol)

/-- The branch `// We found a match` of `onNewOrder`: the incoming firm and the
owner of the candidate when control reaches it, `none` on every other path. -/
def newOrderMatch (me : MatchingEngine) (firmId : Nat) (symbol : String) (side : Char)
    (price : ℚ) : Option (Nat × Nat) :=
  if setCount me.orderQueue (Order.key firmId symbol) ≠ 0 then none
  else
    match scan (isCounterparty symbol side) me.orderQueue with
    | none => none
    | some (_, previousOrder) =>
      if previousOrder.price * (flip side : ℚ) < price * (flip side : ℚ) then none
      else some (firmId, previousOrder.ID)

/-- The match an event produces, if any: `onModify` reaches `onNewOrder` after
its erase and cancel; `onCancel` never does. -/
def eventMatch (me : MatchingEngine) : Event → Option (Nat × Nat)
  | .N firmId symbol side price => newOrderMatch me firmId symbol side price
  | .M firmId symbol price =>
    match scan (isOrderOf firmId symbol) me.orderQueue with
    | none => none
    | some (it, curOrder) =>
      newOrderMatch ⟨callFirm me.FirmList firmId Firm.cancelOrder, me.orderQueue.eraseIdx it⟩
        firmId symbol curOrder.side price
  | .C _ _ => none

/-! ## Properties of states -/

/-- For every firm the counter `liveOrders` is the number of its orders in the book. -/
def LedgerConsistent (me : MatchingEngine) : Prop :=
  ∀ firmId, liveOf me firmId = (ownedCount me firmId : Int)

/-- At most one order in the book for every pair of firm and symbol: a
`std::set` never holds two elements that are equivalent for `operator<`, and
equivalent orders are those with the same `ID` and `symbol`. -/
def UniqueKeys (me : MatchingEngine) : Prop :=
  ∀ firmId symbol, restingCount me firmId symbol ≤ 1

/-- The event ended in a match with the candidate at position `it`: the candidate
left the book and both firms have one more filled order. -/
def MatchedWith (me me' : MatchingEngine) (firmId : Nat) (it : Nat) (c : Order) : Prop :=
  me'.orderQueue = me.orderQueue.eraseIdx it ∧
    filledOf me' firmId = filledOf me firmId + 1 ∧
    filledOf me' c.ID = filledOf me c.ID + 1

/-! ## Sample states -/

/-- The engine after `N 1 "X" 'S' 10`: one resting Sell of firm 1 at 10. -/
def sellAt10 : MatchingEngine := ⟨[(1, ⟨1, 0, 0⟩)], [⟨1, "X", 10, 'S'⟩]⟩

/-- The symbol a message names (the third field of the tuple in `main`). -/
def Event.symbol : Event → String
  | .N _ symbol _ _ => symbol
  | .M _ symbol _ => symbol
  | .C _ symbol => symbol

/-- The firm a message names (the second field of the tuple in `main`). -/
def Event.firmId : Event → Nat
  | .N firmId _ _ _ => firmId
  | .M firmId _ _ => firmId
  | .C firmId _ => firmId

/-- The engine after `N 1738 "APPL" 'B' 1500.50` and `N 2001 "APPL" 'S' 1500.51`
(messages of the stream in `main`): both orders rest. -/
def applTwoResting : MatchingEngine :=
  ⟨[(1738, ⟨1, 0, 0⟩), (2001, ⟨1, 0, 0⟩)],
    [⟨2001, "APPL", 1500.51, 'S'⟩, ⟨1738, "APPL", 1500.50, 'B'⟩]⟩

/-- The engine after the further message `M 2001 "APPL" 1500.48`: the book is
empty and both firms have one filled order. -/
def applMatched : MatchingEngine :=
  ⟨[(1738, ⟨0, 1, -1500.48⟩), (2001, ⟨0, 1, 1500.48⟩)], []⟩

/-- The engine after `N 3000 "X" 'S' 200` and `N 1000 "X" 'S' 50`: two resting
Sells, the one of firm 3000 first in iteration order. -/
def twoSells : MatchingEngine :=
  ⟨[(1000, ⟨1, 0, 0⟩), (3000, ⟨1, 0, 0⟩)],
    [⟨3000, "X", 200, 'S'⟩, ⟨1000, "X", 50, 'S'⟩]⟩

/-! ## Report and further properties of states -/

/-- The method `MatchingEngine::print`: one line per entry of `FirmList`, in
iteration order, with the firm id, `liveOrders`, `filledOrders` and the balance.
The lines are kept as tuples; the formatting as text is not modelled. -/
def print (me : MatchingEngine) : List (Nat × Int × Int × ℚ) :=
  me.FirmList.map
    (fun curFirm =>
      (curFirm.1, curFirm.2.liveOrders, curFirm.2.filledOrders, curFirm.2.totalBalance))

/-- The keys of the ledger are strictly ascending, as the iteration of a
`std::map<uint16_t, Firm>` is. -/
def LedgerSorted (fl : List (Nat × Firm)) : Prop :=
  (fl.map Prod.fst).Pairwise (fun a b => a < b)

/-- The book is strictly ascending for `Order::operator<`, as the iteration of a
`std::set<Order>` is. -/
def BookSorted (q : List Order) : Prop :=
  q.Pairwise (fun a b => a.lt b = true)

/-- Every owner of an order in the book has a ledger entry. -/
def OwnersListed (me : MatchingEngine) : Prop :=
  ∀ x ∈ me.orderQueue, lookup me.FirmList x.ID ≠ none

/-- Sum of the balances of all ledger entries. -/
def balanceSum (fl : List (Nat × Firm)) : ℚ :=
  (fl.map (fun e => e.2.totalBalance)).sum

/-- Sum of `filledOrders` over all ledger entries. -/
def filledSum (fl : List (Nat × Firm)) : Int :=
  (fl.map (fun e => e.2.filledOrders)).sum

/-! ## The `float` addition of `totalBalance += amount`

`Firm::totalBalance` is a `float`: the sum of `completeOrder` is rounded to
binary32 (24 significant bits, round to nearest, ties to even, subnormals down
to `2 ^ (-149)`). The definitions above add exactly; the definitions of this
section round, and the engine `onNewOrderF32` / `onModifyF32` / `stepF32` /
`runF32` is the engine above with this addition. The products `price * flip`
and the comparison of prices are exact in `float`, and `onCancel` does no
arithmetic on balances. -/

/-- Floor of the binary logarithm of `n ≥ 1`, with `fuel ≥ n`. -/
def log2Floor : Nat → Nat → Nat
  | 0, _ => 0
  | fuel + 1, n => if n < 2 then 0 else log2Floor fuel (n / 2) + 1

/-- Least `k` with `d ≤ a * 2 ^ k`, for `a ≥ 1` and `fuel ≥ d`. -/
def shiftsTo : Nat → Nat → Nat → Nat
  | 0, _, _ => 0
  | fuel + 1, a, d => if d ≤ a then 0 else shiftsTo fuel (2 * a) d + 1

/-- The binade of `a / d` for `a, d ≥ 1`: the `e` with `2 ^ e ≤ a / d < 2 ^ (e + 1)`. -/
def binade (a d : Nat) : Int :=
  if d ≤ a then (log2Floor a (a / d) : Int) else -(shiftsTo d a d : Int)

/-- The natural number nearest to `n / d`, the even one of the two at a tie. -/
def roundHalfEven (n d : Nat) : Nat :=
  if 2 * (n % d) < d then n / d
  else if d < 2 * (n % d) then n / d + 1
  else if (n / d) % 2 = 0 then n / d
  else n / d + 1

/-- Significand and exponent of the binary32 value nearest to `a / d`: the
exponent is the binade minus 23, at least `-149`. -/
def f32mag (a d : Nat) : Nat × Int :=
  let qe : Int := max (binade a d - 23) (-149)
  (if 0 ≤ qe then roundHalfEven a (d * 2 ^ qe.toNat)
    else roundHalfEven (a * 2 ^ (-qe).toNat) d, qe)

/-- The largest finite binary32 value. -/
def f32max : ℚ := (2 ^ 24 - 1) * 2 ^ 104

/-- Rounding to binary32. A result of magnitude `2 ^ 128` or more is infinite
in `float` and has no value in `ℚ`: here it is `f32max` with the sign, so a
rounding that overflows never returns its argument. The sign of a zero is not
kept. -/
def f32round (x : ℚ) : ℚ :=
  if x = 0 then 0
  else
    let m := f32mag x.num.natAbs x.den
    let r : ℚ := (m.1 : ℚ) * (2 : ℚ) ^ m.2
    let r := if (2 : ℚ) ^ (128 : Nat) ≤ r then f32max else r
    if x < 0 then -r else r

/-- The `float` sum of two finite `float` values. -/
def f32add (a b : ℚ) : ℚ := f32round (a + b)

/-- The sum stays finite in binary32: its rounding does not overflow. -/
def InF32Range (x : ℚ) : Prop := |x| < 2 ^ 128 - 2 ^ 103

/-- The method `Firm::completeOrder(amount)` with the `float` addition. -/
def Firm.completeOrderF32 (amount : ℚ) (f : Firm) : Firm :=
  ⟨f.liveOrders - 1, f.filledOrders + 1, f32add f.totalBalance amount⟩

/-- The method `MatchingEngine::onNewOrder` with the `float` addition. -/
def onNewOrderF32 (me : MatchingEngine) (firmId : Nat) (symbol : String) (side : Char)
    (price : ℚ) : MatchingEngine :=
  if setCount me.orderQueue (Order.key firmId symbol) ≠ 0 then me
  else
    let fl1 := callFirm me.FirmList firmId Firm.newOrder
    match scan (isCounterparty symbol side) me.orderQueue with
    | none => ⟨fl1, setInsert me.orderQueue ⟨firmId, symbol, price, side⟩⟩
    | some (it, previousOrder) =>
      if previousOrder.price * (flip side : ℚ) < price * (flip side : ℚ) then
        ⟨fl1, setInsert me.orderQueue ⟨firmId, symbol, price, side⟩⟩
      else
        let fl2 := callFirm fl1 firmId (Firm.completeOrderF32 (price * (flip side : ℚ)))
        let fl3 := callFirm fl2 previousOrder.ID
          (Firm.completeOrderF32 (-price * (flip side : ℚ)))
        ⟨fl3, me.orderQueue.eraseIdx it⟩

/-- The method `MatchingEngine::onModify` with the `float` addition. -/
def onModifyF32 (me : MatchingEngine) (firmId : Nat) (symbol : String) (price : ℚ) :
    MatchingEngine :=
  match scan (isOrderOf firmId symbol) me.orderQueue with
  | none => me
  | some (it, curOrder) =>
    let q1 := me.orderQueue.eraseIdx it
    let fl1 := callFirm me.FirmList firmId Firm.cancelOrder
    onNewOrderF32 ⟨fl1, q1⟩ firmId symbol curOrder.side price

/-- The `switch` in the loop of `main`, with the `float` addition. -/
def stepF32 (me : MatchingEngine) : Event → MatchingEngine
  | .N firmId symbol side price => onNewOrderF32 me firmId symbol side price
  | .M firmId symbol price => onModifyF32 me firmId symbol price
  | .C firmId symbol => onCancel me firmId symbol

/-- The loop of `main` over a message stream, with the `float` addition. -/
def runF32 (me : MatchingEngine) (msgStream : List Event) : MatchingEngine :=
  msgStream.foldl stepF32 me

/-- The states a finite message stream produces from the freshly constructed
engine, with the `float` addition. -/
def ReachableF32 (me : MatchingEngine) : Prop :=
  ∃ msgStream, runF32 MatchingEngine.empty msgStream = me

/-- The amount of the two `completeOrder` calls when an event matches:
`price * flip`, with the side of the message for `'N'` and the side of the
resting order for `'M'`. -/
def eventAmount (me : MatchingEngine) : Event → ℚ
  | .N _ _ side price => price * (flip side : ℚ)
  | .M firmId symbol price =>
    match scan (isOrderOf firmId symbol) me.orderQueue with
    | none => 0
    | some (_, curOrder) => price * (flip curOrder.side : ℚ)
  | .C _ _ => 0

/-- No `float` addition of the stream rounds: every event leaves the state that
exact addition leaves. -/
def exactRun : MatchingEngine → List Event → Bool
  | _, [] => true
  | me, e :: es => decide (stepF32 me e = step me e) && exactRun (stepF32 me e) es

/-- The engine after `N 1 "X" 'S' 16777216`, `N 2 "X" 'B' 16777216` and
`N 1 "X" 'S' 1`: firm 1 holds the balance `2 ^ 24` and a resting Sell at 1. -/
def bigBalance : MatchingEngine :=
  ⟨[(1, ⟨1, 1, 16777216⟩), (2, ⟨0, 1, -16777216⟩)], [⟨1, "X", 1, 'S'⟩]⟩

/-- The engine after the further message `N 3 "X" 'B' 1`: the balance of firm 1
is still `2 ^ 24`. -/
def bigBalanceRounded : MatchingEngine :=
  ⟨[(1, ⟨0, 2, 16777216⟩), (2, ⟨0, 1, -16777216⟩), (3, ⟨0, 1, -1⟩)], []⟩

/-- The ledger without the balances: key, `liveOrders` and `filledOrders` of every
entry, in iteration order. -/
def counters (fl : List (Nat × Firm)) : List (Nat × Int × Int) :=
  fl.map (fun e => (e.1, e.2.liveOrders, e.2.filledOrders))

/-- Two states with the same book and the same ledger up to the balances. -/
def SameButBalance (s t : MatchingEngine) : Prop :=
  s.orderQueue = t.orderQueue ∧ counters s.FirmList = counters t.FirmList

/-! ## The order of `Order::operator<` -/

theorem Order.equiv_iff (a b : Order) :
    a.equiv b = true ↔ a.ID = b.ID ∧ a.symbol = b.symbol := by
  unfold Order.equiv Order.lt
  by_cases h : a.ID = b.ID
  · have h' : b.ID = a.ID := h.symm
    simp only [h, if_true, Bool.and_eq_true, Bool.not_eq_true', decide_eq_false_iff_not,
      not_lt, true_and]
    constructor
    · rintro ⟨h1, h2⟩
      exact String.ext (le_antisymm h1 h2)
    · intro e
      simp [e]
  · have h' : ¬ b.ID = a.ID := fun e => h e.symm
    simp only [h, h', if_false, Bool.and_eq_true, Bool.not_eq_true', decide_eq_false_iff_not,
      not_lt, false_and, iff_false, not_and, not_le]
    intro h1
    omega

theorem equiv_key (firmId : Nat) (symbol : String) (x : Order) :
    x.equiv (Order.key firmId symbol) = isOrderOf firmId symbol x := by
  rw [Bool.eq_iff_iff, Order.equiv_iff]
  simp [isOrderOf, Order.key]

theorem equiv_order (o x : Order) : x.equiv o = isOrderOf o.ID o.symbol x := by
  rw [Bool.eq_iff_iff, Order.equiv_iff]
  simp [isOrderOf]

theorem isOrderOf_iff (firmId : Nat) (symbol : String) (x : Order) :
    isOrderOf firmId symbol x = true ↔ x.ID = firmId ∧ x.symbol = symbol := by
  simp [isOrderOf]

/-! ## Facts about the set operations -/

theorem setCount_eq_zero_iff (q : List Order) (firmId : Nat) (symbol : String) :
    setCount q (Order.key firmId symbol) = 0 ↔ ∀ x ∈ q, isOrderOf firmId symbol x = false := by
  unfold setCount
  simp only [equiv_key]
  by_cases h : q.any (isOrderOf firmId symbol) = true
  · simp only [h, if_true, one_ne_zero, false_iff]
    intro hall
    obtain ⟨x, hx, hp⟩ := List.any_eq_true.mp h
    rw [hall x hx] at hp
    exact Bool.false_ne_true hp
  · simp only [h, if_false, true_iff, Bool.false_eq_true]
    intro x hx
    by_contra hp
    exact h (List.any_eq_true.mpr ⟨x, hx, by simpa using hp⟩)

theorem setInsert_of_absent (q : List Order) (o : Order)
    (h : ∀ x ∈ q, isOrderOf o.ID o.symbol x = false) : setInsert q o = insertPos o q := by
  unfold setInsert
  have : q.any (fun x => x.equiv o) = false := by
    rw [List.any_eq_false]
    intro x hx
    rw [equiv_order, h x hx]
    simp
  simp [this]

theorem insertPos_perm (o : Order) (q : List Order) : (insertPos o q).Perm (o :: q) := by
  induction q with
  | nil => exact List.Perm.refl _
  | cons x xs ih =>
    unfold insertPos
    split
    · exact List.Perm.refl _
    · exact (List.Perm.cons x ih).trans (List.Perm.swap o x xs)

theorem scan_eq_none_iff (p : Order → Bool) (q : List Order) :
    scan p q = none ↔ ∀ x ∈ q, p x = false := by
  induction q with
  | nil => simp [scan]
  | cons x xs ih =>
    unfold scan
    by_cases hx : p x = true
    · simp [hx]
    · simp [hx, ih]

theorem scan_eq_some (p : Order → Bool) (q : List Order) (i : Nat) (c : Order)
    (h : scan p q = some (i, c)) :
    ∃ l1 l2, q = l1 ++ c :: l2 ∧ (∀ x ∈ l1, p x = false) ∧ p c = true ∧
      q.eraseIdx i = l1 ++ l2 := by
  induction q generalizing i with
  | nil => simp [scan] at h
  | cons x xs ih =>
    unfold scan at h
    by_cases hx : p x = true
    · simp only [hx, if_true, Option.some.injEq, Prod.mk.injEq] at h
      obtain ⟨rfl, rfl⟩ := h
      exact ⟨[], xs, rfl, by simp, hx, rfl⟩
    · simp only [hx, Bool.false_eq_true, if_false, Option.map_eq_some', Prod.mk.injEq,
        Prod.exists] at h
      obtain ⟨j, d, hs, rfl, rfl⟩ := h
      obtain ⟨l1, l2, hq, hl1, hc, he⟩ := ih j hs
      refine ⟨x :: l1, l2, by simp [hq], ?_, hc, by simp [he]⟩
      intro y hy
      rcases List.mem_cons.mp hy with rfl | hy
      · simpa using hx
      · exact hl1 y hy

/-! ## Facts about the map operations -/

theorem find_mapInsertPos_self (e : Nat × Firm) (fl : List (Nat × Firm))
    (h : ∀ x ∈ fl, x.1 ≠ e.1) :
    (mapInsertPos e fl).find? (fun x => x.1 == e.1) = some e := by
  induction fl with
  | nil => simp [mapInsertPos]
  | cons x xs ih =>
    unfold mapInsertPos
    have hx : x.1 ≠ e.1 := h x (List.mem_cons_self _ _)
    have hxs : ∀ y ∈ xs, y.1 ≠ e.1 := fun y hy => h y (List.mem_cons_of_mem _ hy)
    split
    · simp
    · simp [List.find?_cons, hx, ih hxs]

theorem find_mapInsertPos_ne (e : Nat × Firm) (fl : List (Nat × Firm)) (p : Nat)
    (h : p ≠ e.1) :
    (mapInsertPos e fl).find? (fun x => x.1 == p) = fl.find? (fun x => x.1 == p) := by
  have he : (e.1 == p) = false := by simpa using fun e' => h e'.symm
  induction fl with
  | nil => simp [mapInsertPos, List.find?_cons, he]
  | cons x xs ih =>
    unfold mapInsertPos
    split
    · simp [List.find?_cons, he]
    · simp only [List.find?_cons, ih]

theorem lookup_getFirm_self (fl : List (Nat × Firm)) (firmId : Nat) :
    lookup (getFirm fl firmId) firmId = some ((lookup fl firmId).getD Firm.init) := by
  unfold getFirm lookup
  by_cases h : mapCount fl firmId = true
  · simp only [h, Bool.not_true, Bool.false_eq_true, if_false]
    obtain ⟨x, hx, hp⟩ := List.any_eq_true.mp h
    cases hf : fl.find? (fun e => e.1 == firmId) with
    | none =>
      rw [List.find?_eq_none] at hf
      exact absurd hp (hf x hx)
    | some y => simp
  · have h' : mapCount fl firmId = false := by simpa using h
    have hall : ∀ x ∈ fl, x.1 ≠ firmId := by
      intro x hx e
      exact h (List.any_eq_true.mpr ⟨x, hx, by simpa using e⟩)
    have hnone : fl.find? (fun e => e.1 == firmId) = none := by
      rw [List.find?_eq_none]
      intro x hx
      simpa using hall x hx
    simp only [h', Bool.not_false, if_true, mapInsert, Bool.false_eq_true, if_false]
    rw [find_mapInsertPos_self (firmId, Firm.init) fl hall, hnone]
    rfl

theorem lookup_getFirm_ne (fl : List (Nat × Firm)) (firmId p : Nat) (h : p ≠ firmId) :
    lookup (getFirm fl firmId) p = lookup fl p := by
  unfold getFirm lookup mapInsert
  by_cases hc : mapCount fl firmId = true
  · simp [hc]
  · have h' : mapCount fl firmId = false := by simpa using hc
    simp only [h', Bool.not_false, if_true, Bool.false_eq_true, if_false]
    rw [find_mapInsertPos_ne (firmId, Firm.init) fl p h]

theorem lookup_map_entry (fl : List (Nat × Firm)) (firmId p : Nat) (m : Firm → Firm) :
    lookup (fl.map (fun e => if e.1 = firmId then (e.1, m e.2) else e)) p =
      (lookup fl p).map (fun f => if p = firmId then m f else f) := by
  unfold lookup
  induction fl with
  | nil => simp
  | cons x xs ih =>
    by_cases hx : x.1 = p
    · by_cases hf : x.1 = firmId
      · have : p = firmId := hx ▸ hf
        simp [List.find?_cons, hx, hf, this]
      · have : ¬ p = firmId := hx ▸ hf
        simp [List.find?_cons, hx, hf, this]
    · have hb : (x.1 == p) = false := by simpa using hx
      by_cases hf : x.1 = firmId
      · simp only [List.map_cons, hf, if_true, List.find?_cons]
        rw [← hf, hb]
        simpa [hf] using ih
      · simp only [List.map_cons, hf, if_false, List.find?_cons, hb]
        simpa using ih

theorem lookup_callFirm_self (fl : List (Nat × Firm)) (firmId : Nat) (m : Firm → Firm) :
    lookup (callFirm fl firmId m) firmId = some (m ((lookup fl firmId).getD Firm.init)) := by
  unfold callFirm
  rw [lookup_map_entry, lookup_getFirm_self]
  simp

theorem lookup_callFirm_ne (fl : List (Nat × Firm)) (firmId p : Nat) (m : Firm → Firm)
    (h : p ≠ firmId) : lookup (callFirm fl firmId m) p = lookup fl p := by
  unfold callFirm
  rw [lookup_map_entry, lookup_getFirm_ne fl firmId p h]
  simp [h]

theorem firmOf_callFirm (fl : List (Nat × Firm)) (firmId p : Nat) (m : Firm → Firm) :
    firmOf (callFirm fl firmId m) p =
      if p = firmId then m (firmOf fl firmId) else firmOf fl p := by
  unfold firmOf
  by_cases h : p = firmId
  · subst h
    simp [lookup_callFirm_self]
  · simp [lookup_callFirm_ne fl firmId p m h, h]

/-! ## The paths through `onNewOrder` -/

theorem onNewOrder_duplicate (me : MatchingEngine) (firmId : Nat) (symbol : String)
    (side : Char) (price : ℚ)
    (h : setCount me.orderQueue (Order.key firmId symbol) ≠ 0) :
    onNewOrder me firmId symbol side price = me := by
  unfold onNewOrder
  simp [h]

theorem onNewOrder_no_candidate (me : MatchingEngine) (firmId : Nat) (symbol : String)
    (side : Char) (price : ℚ)
    (h : setCount me.orderQueue (Order.key firmId symbol) = 0)
    (hs : scan (isCounterparty symbol side) me.orderQueue = none) :
    onNewOrder me firmId symbol side price =
      ⟨callFirm me.FirmList firmId Firm.newOrder,
        insertPos ⟨firmId, symbol, price, side⟩ me.orderQueue⟩ := by
  unfold onNewOrder
  have hi := setInsert_of_absent me.orderQueue ⟨firmId, symbol, price, side⟩
    ((setCount_eq_zero_iff _ _ _).mp h)
  simp [h, hs, hi]

theorem onNewOrder_no_cross (me : MatchingEngine) (firmId : Nat) (symbol : String)
    (side : Char) (price : ℚ) (it : Nat) (c : Order)
    (h : setCount me.orderQueue (Order.key firmId symbol) = 0)
    (hs : scan (isCounterparty symbol side) me.orderQueue = some (it, c))
    (hp : c.price * (flip side : ℚ) < price * (flip side : ℚ)) :
    onNewOrder me firmId symbol side price =
      ⟨callFirm me.FirmList firmId Firm.newOrder,
        insertPos ⟨firmId, symbol, price, side⟩ me.orderQueue⟩ := by
  unfold onNewOrder
  have hi := setInsert_of_absent me.orderQueue ⟨firmId, symbol, price, side⟩
    ((setCount_eq_zero_iff _ _ _).mp h)
  simp [h, hs, hi, hp]

theorem onNewOrder_cross (me : MatchingEngine) (firmId : Nat) (symbol : String)
    (side : Char) (price : ℚ) (it : Nat) (c : Order)
    (h : setCount me.orderQueue (Order.key firmId symbol) = 0)
    (hs : scan (isCounterparty symbol side) me.orderQueue = some (it, c))
    (hp : ¬ c.price * (flip side : ℚ) < price * (flip side : ℚ)) :
    onNewOrder me firmId symbol side price =
      ⟨callFirm
          (callFirm (callFirm me.FirmList firmId Firm.newOrder) firmId
            (Firm.completeOrder (price * (flip side : ℚ))))
          c.ID (Firm.completeOrder (-price * (flip side : ℚ))),
        me.orderQueue.eraseIdx it⟩ := by
  unfold onNewOrder
  simp [h, hs, hp]

/-- The three ways `onNewOrder` can end. -/
theorem onNewOrder_cases (me : MatchingEngine) (firmId : Nat) (symbol : String)
    (side : Char) (price : ℚ) :
    (setCount me.orderQueue (Order.key firmId symbol) ≠ 0 ∧
      onNewOrder me firmId symbol side price = me) ∨
    (setCount me.orderQueue (Order.key firmId symbol) = 0 ∧
      newOrderMatch me firmId symbol side price = none ∧
      onNewOrder me firmId symbol side price =
        ⟨callFirm me.FirmList firmId Firm.newOrder,
          insertPos ⟨firmId, symbol, price, side⟩ me.orderQueue⟩) ∨
    (setCount me.orderQueue (Order.key firmId symbol) = 0 ∧
      ∃ it c, scan (isCounterparty symbol side) me.orderQueue = some (it, c) ∧
        ¬ c.price * (flip side : ℚ) < price * (flip side : ℚ) ∧
        newOrderMatch me firmId symbol side price = some (firmId, c.ID) ∧
        onNewOrder me firmId symbol side price =
          ⟨callFirm
              (callFirm (callFirm me.FirmList firmId Firm.newOrder) firmId
                (Firm.completeOrder (price * (flip side : ℚ))))
              c.ID (Firm.completeOrder (-price * (flip side : ℚ))),
            me.orderQueue.eraseIdx it⟩) := by
  by_cases h : setCount me.orderQueue (Order.key firmId symbol) = 0
  · right
    cases hs : scan (isCounterparty symbol side) me.orderQueue with
    | none =>
      left
      exact ⟨h, by simp [newOrderMatch, h, hs], onNewOrder_no_candidate me _ _ _ _ h hs⟩
    | some r =>
      obtain ⟨it, c⟩ := r
      by_cases hp : c.price * (flip side : ℚ) < price * (flip side : ℚ)
      · left
        exact ⟨h, by simp [newOrderMatch, h, hs, hp], onNewOrder_no_cross me _ _ _ _ it c h hs hp⟩
      · right
        exact ⟨h, it, c, rfl, hp, by simp [newOrderMatch, h, hs, hp],
          onNewOrder_cross me _ _ _ _ it c h hs hp⟩
  · left
    exact ⟨h, onNewOrder_duplicate me _ _ _ _ h⟩

theorem countP_of_scan (p r : Order → Bool) (q : List Order) (i : Nat) (c : Order)
    (h : scan p q = some (i, c)) :
    q.countP r = (q.eraseIdx i).countP r + (if r c = true then 1 else 0) := by
  obtain ⟨l1, l2, hq, -, -, he⟩ := scan_eq_some p q i c h
  rw [he, hq, List.countP_append, List.countP_append, List.countP_cons]
  omega

theorem countP_insertPos (r : Order → Bool) (o : Order) (q : List Order) :
    (insertPos o q).countP r = q.countP r + (if r o = true then 1 else 0) := by
  rw [(insertPos_perm o q).countP_eq, List.countP_cons]

/-! ## The paths through `onCancel` and `onModify` -/

theorem scan_isOrderOf (firmId : Nat) (symbol : String) (q : List Order) (it : Nat)
    (c : Order) (h : scan (isOrderOf firmId symbol) q = some (it, c)) :
    c.ID = firmId ∧ c.symbol = symbol := by
  obtain ⟨_, _, -, -, hc, -⟩ := scan_eq_some _ q it c h
  exact (isOrderOf_iff firmId symbol c).mp hc

theorem onCancel_absent (me : MatchingEngine) (firmId : Nat) (symbol : String)
    (h : scan (isOrderOf firmId symbol) me.orderQueue = none) :
    onCancel me firmId symbol = me := by
  unfold onCancel
  simp [h]

theorem onCancel_found (me : MatchingEngine) (firmId : Nat) (symbol : String) (it : Nat)
    (c : Order) (h : scan (isOrderOf firmId symbol) me.orderQueue = some (it, c)) :
    onCancel me firmId symbol =
      ⟨callFirm me.FirmList firmId Firm.cancelOrder, me.orderQueue.eraseIdx it⟩ := by
  unfold onCancel
  simp [h]

theorem onModify_absent (me : MatchingEngine) (firmId : Nat) (symbol : String) (price : ℚ)
    (h : scan (isOrderOf firmId symbol) me.orderQueue = none) :
    onModify me firmId symbol price = me := by
  unfold onModify
  simp [h]

theorem onModify_found (me : MatchingEngine) (firmId : Nat) (symbol : String) (price : ℚ)
    (it : Nat) (c : Order) (h : scan (isOrderOf firmId symbol) me.orderQueue = some (it, c)) :
    onModify me firmId symbol price =
      onNewOrder ⟨callFirm me.FirmList firmId Firm.cancelOrder, me.orderQueue.eraseIdx it⟩
        firmId symbol c.side price := by
  unfold onModify
  simp [h]

/-- An invariant of every step holds after every message stream. -/
theorem run_induction (P : MatchingEngine → Prop)
    (hstep : ∀ me e, P me → P (step me e)) :
    ∀ (msgStream : List Event) (me : MatchingEngine), P me → P (run me msgStream) := by
  intro msgStream
  induction msgStream with
  | nil => intro me h; exact h
  | cons e es ih =>
    intro me h
    exact ih (step me e) (hstep me e h)

theorem reachable_induction (P : MatchingEngine → Prop) (h0 : P MatchingEngine.empty)
    (hstep : ∀ me e, P me → P (step me e)) (me : MatchingEngine) (h : Reachable me) :
    P me := by
  obtain ⟨es, rfl⟩ := h
  exact run_induction P hstep es _ h0

/-! ## Ledger consistency -/

theorem ledgerConsistent_onNewOrder (me : MatchingEngine) (firmId : Nat) (symbol : String)
    (side : Char) (price : ℚ) (h : LedgerConsistent me) :
    LedgerConsistent (onNewOrder me firmId symbol side price) := by
  rcases onNewOrder_cases me firmId symbol side price with
    ⟨-, e⟩ | ⟨-, -, e⟩ | ⟨-, it, c, hs, -, -, e⟩
  · rw [e]; exact h
  · rw [e]
    intro p
    have hp := h p
    simp only [liveOf, ownedCount, firmOf_callFirm, countP_insertPos] at hp ⊢
    by_cases hpf : p = firmId
    · subst hpf
      simp [Firm.newOrder, hp]
    · have : ¬ firmId = p := fun e => hpf e.symm
      simp [hpf, this, hp]
  · rw [e]
    intro p
    have hp := h p
    have hc := countP_of_scan _ (fun o => o.ID == p) _ it c hs
    simp only [liveOf, ownedCount, firmOf_callFirm] at hp ⊢
    rw [hc] at hp
    beta_reduce at hp
    have hlive : ∀ (b : Prop) [Decidable b] (x y : Firm),
        (if b then x else y).liveOrders = if b then x.liveOrders else y.liveOrders := by
      intro b _ x y
      split <;> rfl
    simp only [hlive, Firm.newOrder, Firm.completeOrder, beq_iff_eq] at hp ⊢
    by_cases hpf : p = firmId
    · subst hpf
      by_cases hcp : c.ID = p
      · simp only [hcp, if_true] at hp ⊢
        omega
      · have hpc : ¬ p = c.ID := fun e => hcp e.symm
        simp only [hcp, hpc, if_true, if_false] at hp ⊢
        omega
    · by_cases hcp : c.ID = p
      · subst hcp
        simp only [hpf, if_true, if_false] at hp ⊢
        omega
      · have hpc : ¬ p = c.ID := fun e => hcp e.symm
        simp only [hpf, hcp, hpc, if_false] at hp ⊢
        omega

theorem ledgerConsistent_erase_cancel (me : MatchingEngine) (firmId : Nat)
    (symbol : String) (it : Nat) (c : Order)
    (hs : scan (isOrderOf firmId symbol) me.orderQueue = some (it, c))
    (h : LedgerConsistent me) :
    LedgerConsistent
      ⟨callFirm me.FirmList firmId Firm.cancelOrder, me.orderQueue.eraseIdx it⟩ := by
  intro p
  have hp := h p
  have hc := countP_of_scan _ (fun o => o.ID == p) _ it c hs
  have hid := (scan_isOrderOf firmId symbol _ it c hs).1
  simp only [liveOf, ownedCount, firmOf_callFirm] at hp ⊢
  rw [hc] at hp
  by_cases hpf : p = firmId
  · subst hpf
    simp [hid, Firm.cancelOrder] at hp ⊢
    omega
  · have : ¬ firmId = p := fun e => hpf e.symm
    simp [hpf, hid, this] at hp ⊢
    omega

theorem ledgerConsistent_step (me : MatchingEngine) (e : Event) (h : LedgerConsistent me) :
    LedgerConsistent (step me e) := by
  cases e with
  | N firmId symbol side price => exact ledgerConsistent_onNewOrder me _ _ _ _ h
  | M firmId symbol price =>
    show LedgerConsistent (onModify me firmId symbol price)
    cases hs : scan (isOrderOf firmId symbol) me.orderQueue with
    | none => rw [onModify_absent me _ _ _ hs]; exact h
    | some r =>
      obtain ⟨it, c⟩ := r
      rw [onModify_found me _ _ _ it c hs]
      exact ledgerConsistent_onNewOrder _ _ _ _ _
        (ledgerConsistent_erase_cancel me firmId symbol it c hs h)
  | C firmId symbol =>
    show LedgerConsistent (onCancel me firmId symbol)
    cases hs : scan (isOrderOf firmId symbol) me.orderQueue with
    | none => rw [onCancel_absent me _ _ hs]; exact h
    | some r =>
      obtain ⟨it, c⟩ := r
      rw [onCancel_found me _ _ it c hs]
      exact ledgerConsistent_erase_cancel me firmId symbol it c hs h

theorem ledgerConsistent_empty : LedgerConsistent MatchingEngine.empty := by
  intro p
  simp [liveOf, ownedCount, firmOf, lookup, MatchingEngine.empty, Firm.init]

/-- C1 (ledger consistency): in every state reachable from the freshly
constructed engine by a finite stream of `onNewOrder` / `onModify` / `onCancel`
events, every firm's `liveOrders` equals the number of orders in the book it
owns, and a firm without a ledger entry owns no order. -/
theorem C1_ledger_consistency (me : MatchingEngine) (h : Reachable me) (firmId : Nat) :
    liveOf me firmId = (ownedCount me firmId : Int) ∧
      (lookup me.FirmList firmId = none → ownedCount me firmId = 0) := by
  have hc : LedgerConsistent me :=
    reachable_induction LedgerConsistent ledgerConsistent_empty ledgerConsistent_step me h
  refine ⟨hc firmId, ?_⟩
  intro hn
  have := hc firmId
  simp only [liveOf, firmOf, hn, Option.getD_none, Firm.init] at this
  exact_mod_cast this.symm

/-- C1 at the state after `N 1 "X" 'S' 10`, `N 2 "Y" 'B' 7`, `C 1 "X"`. -/
theorem C1_ledger_consistency_witness :
    Reachable (run MatchingEngine.empty [.N 1 "X" 'S' 10, .N 2 "Y" 'B' 7, .C 1 "X"]) ∧
      (liveOf (run MatchingEngine.empty [.N 1 "X" 'S' 10, .N 2 "Y" 'B' 7, .C 1 "X"]) 2 =
          (ownedCount
            (run MatchingEngine.empty [.N 1 "X" 'S' 10, .N 2 "Y" 'B' 7, .C 1 "X"]) 2 : Int) ∧
        (lookup (run MatchingEngine.empty
            [.N 1 "X" 'S' 10, .N 2 "Y" 'B' 7, .C 1 "X"]).FirmList 2 = none →
          ownedCount (run MatchingEngine.empty
            [.N 1 "X" 'S' 10, .N 2 "Y" 'B' 7, .C 1 "X"]) 2 = 0)) :=
  ⟨⟨_, rfl⟩, C1_ledger_consistency _ ⟨_, rfl⟩ 2⟩

/-! ## Uniqueness -/

theorem uniqueKeys_eraseIdx (fl fl1 : List (Nat × Firm)) (q : List Order) (it : Nat)
    (h : UniqueKeys ⟨fl, q⟩) : UniqueKeys ⟨fl1, q.eraseIdx it⟩ := by
  intro f s
  have := h f s
  simp only [restingCount] at this ⊢
  exact le_trans ((List.eraseIdx_sublist q it).countP_le _) this

theorem uniqueKeys_onNewOrder (me : MatchingEngine) (firmId : Nat) (symbol : String)
    (side : Char) (price : ℚ) (h : UniqueKeys me) :
    UniqueKeys (onNewOrder me firmId symbol side price) := by
  rcases onNewOrder_cases me firmId symbol side price with
    ⟨-, e⟩ | ⟨h0, -, e⟩ | ⟨-, it, c, -, -, -, e⟩
  · rw [e]; exact h
  · rw [e]
    intro f s
    have hfs := h f s
    simp only [restingCount, countP_insertPos] at hfs ⊢
    by_cases hk : isOrderOf f s ⟨firmId, symbol, price, side⟩ = true
    · obtain ⟨rfl, rfl⟩ := (isOrderOf_iff _ _ _).mp hk
      have hz : me.orderQueue.countP (isOrderOf firmId symbol) = 0 := by
        rw [List.countP_eq_zero]
        intro x hx
        simp [(setCount_eq_zero_iff _ _ _).mp h0 x hx]
      simp [hz, hk]
    · simp [hk, hfs]
  · rw [e]
    exact uniqueKeys_eraseIdx _ _ _ it h

theorem uniqueKeys_step (me : MatchingEngine) (e : Event) (h : UniqueKeys me) :
    UniqueKeys (step me e) := by
  cases e with
  | N firmId symbol side price => exact uniqueKeys_onNewOrder me _ _ _ _ h
  | M firmId symbol price =>
    show UniqueKeys (onModify me firmId symbol price)
    cases hs : scan (isOrderOf firmId symbol) me.orderQueue with
    | none => rw [onModify_absent me _ _ _ hs]; exact h
    | some r =>
      obtain ⟨it, c⟩ := r
      rw [onModify_found me _ _ _ it c hs]
      exact uniqueKeys_onNewOrder _ _ _ _ _ (uniqueKeys_eraseIdx _ _ _ it h)
  | C firmId symbol =>
    show UniqueKeys (onCancel me firmId symbol)
    cases hs : scan (isOrderOf firmId symbol) me.orderQueue with
    | none => rw [onCancel_absent me _ _ hs]; exact h
    | some r =>
      obtain ⟨it, c⟩ := r
      rw [onCancel_found me _ _ it c hs]
      exact uniqueKeys_eraseIdx _ _ _ it h

theorem uniqueKeys_empty : UniqueKeys MatchingEngine.empty := by
  intro f s
  simp [restingCount, MatchingEngine.empty]

theorem uniqueKeys_of_reachable (me : MatchingEngine) (h : Reachable me) : UniqueKeys me :=
  reachable_induction UniqueKeys uniqueKeys_empty uniqueKeys_step me h

/-- C2 (uniqueness): in every state reachable from the freshly constructed
engine by a finite stream of events, the book holds at most one order for each
pair of owner and symbol: the orders in the book with a given owner and symbol
number at most 1. -/
theorem C2_uniqueness (me : MatchingEngine) (h : Reachable me) (firmId : Nat)
    (symbol : String) :
    (me.orderQueue.filter (fun o => o.ID == firmId && o.symbol == symbol)).length ≤ 1 := by
  have := uniqueKeys_of_reachable me h firmId symbol
  simp only [restingCount, List.countP_eq_length_filter] at this
  exact this

/-- C2 at the state after `N 1 "X" 'S' 10`, `N 1 "X" 'B' 12`, `N 1 "Y" 'B' 7`. -/
theorem C2_uniqueness_witness :
    Reachable (run MatchingEngine.empty [.N 1 "X" 'S' 10, .N 1 "X" 'B' 12, .N 1 "Y" 'B' 7]) ∧
      ((run MatchingEngine.empty
          [.N 1 "X" 'S' 10, .N 1 "X" 'B' 12, .N 1 "Y" 'B' 7]).orderQueue.filter
        (fun o => o.ID == 1 && o.symbol == "X")).length ≤ 1 :=
  ⟨⟨_, rfl⟩, C2_uniqueness _ ⟨_, rfl⟩ 1 "X"⟩

/-! ## The candidate and the crossing rule -/

theorem scan_getElem (p : Order → Bool) (q : List Order) (i : Nat) (c : Order)
    (h : scan p q = some (i, c)) : q[i]? = some c := by
  induction q generalizing i with
  | nil => simp [scan] at h
  | cons x xs ih =>
    unfold scan at h
    by_cases hx : p x = true
    · simp only [hx, if_true, Option.some.injEq, Prod.mk.injEq] at h
      obtain ⟨rfl, rfl⟩ := h
      simp
    · simp only [hx, Bool.false_eq_true, if_false, Option.map_eq_some', Prod.mk.injEq,
        Prod.exists] at h
      obtain ⟨j, d, hs, rfl, rfl⟩ := h
      simpa using ih j hs

theorem scan_mem (p : Order → Bool) (q : List Order) (i : Nat) (c : Order)
    (h : scan p q = some (i, c)) : c ∈ q := by
  obtain ⟨l1, l2, hq, -, -, -⟩ := scan_eq_some p q i c h
  rw [hq]
  simp

/-- The candidate of an accepted order is an order of another firm, for the same
symbol, on a different side. -/
theorem candidate_facts (q : List Order) (firmId : Nat) (symbol : String) (side : Char)
    (it : Nat) (c : Order) (h0 : setCount q (Order.key firmId symbol) = 0)
    (hs : scan (isCounterparty symbol side) q = some (it, c)) :
    c.ID ≠ firmId ∧ c.symbol = symbol ∧ c.side ≠ side := by
  obtain ⟨_, _, -, -, hc, -⟩ := scan_eq_some _ q it c hs
  have hsym : c.symbol = symbol ∧ c.side ≠ side := by simpa [isCounterparty] using hc
  refine ⟨?_, hsym.1, hsym.2⟩
  intro hid
  have := (setCount_eq_zero_iff q firmId symbol).mp h0 c (scan_mem _ q it c hs)
  simp [isOrderOf, hid, hsym.1] at this

/-- The ledger entry of every firm after the three ledger calls of a match. -/
theorem firmOf_cross (fl : List (Nat × Firm)) (firmId cid : Nat) (a b : ℚ) (p : Nat)
    (hne : cid ≠ firmId) :
    firmOf (callFirm (callFirm (callFirm fl firmId Firm.newOrder) firmId
        (Firm.completeOrder a)) cid (Firm.completeOrder b)) p =
      if p = firmId then Firm.completeOrder a (Firm.newOrder (firmOf fl firmId))
      else if p = cid then Firm.completeOrder b (firmOf fl cid)
      else firmOf fl p := by
  simp only [firmOf_callFirm]
  by_cases hpf : p = firmId
  · subst hpf
    have : ¬ p = cid := fun e => hne e.symm
    simp [this]
  · by_cases hpc : p = cid
    · subst hpc
      simp [hpf]
    · simp [hpf, hpc]

theorem lookup_cross (fl : List (Nat × Firm)) (firmId cid : Nat) (m1 m2 m3 : Firm → Firm)
    (p : Nat) (hpf : p ≠ firmId) (hpc : p ≠ cid) :
    lookup (callFirm (callFirm (callFirm fl firmId m1) firmId m2) cid m3) p = lookup fl p := by
  rw [lookup_callFirm_ne _ _ _ _ hpc, lookup_callFirm_ne _ _ _ _ hpf,
    lookup_callFirm_ne _ _ _ _ hpf]

theorem length_insertPos (o : Order) (q : List Order) :
    (insertPos o q).length = q.length + 1 := by
  rw [(insertPos_perm o q).length_eq, List.length_cons]

theorem flip_buy : flip 'B' = -1 := rfl

theorem flip_not_buy (side : Char) (h : side ≠ 'B') : flip side = 1 := by
  simp [flip, h]

theorem matchedWith_iff (me : MatchingEngine) (firmId : Nat) (symbol : String)
    (side : Char) (price : ℚ) (it : Nat) (c : Order)
    (h0 : setCount me.orderQueue (Order.key firmId symbol) = 0)
    (hs : scan (isCounterparty symbol side) me.orderQueue = some (it, c)) :
    MatchedWith me (onNewOrder me firmId symbol side price) firmId it c ↔
      ¬ c.price * (flip side : ℚ) < price * (flip side : ℚ) := by
  have hne := (candidate_facts _ firmId symbol side it c h0 hs).1
  constructor
  · intro hm hlt
    rw [onNewOrder_no_cross me _ _ _ _ it c h0 hs hlt] at hm
    have hlen := congrArg List.length hm.1
    have hle := (List.eraseIdx_sublist me.orderQueue it).length_le
    simp only [length_insertPos] at hlen
    omega
  · intro hnlt
    rw [onNewOrder_cross me _ _ _ _ it c h0 hs hnlt]
    refine ⟨rfl, ?_, ?_⟩
    · simp [filledOf, firmOf_cross _ _ _ _ _ _ hne, Firm.completeOrder, Firm.newOrder]
    · simp [filledOf, firmOf_cross _ _ _ _ _ _ hne, hne, Firm.completeOrder]

/-- C3 (crossing rule): when `onNewOrder(firmId, symbol, side, price)` is
accepted (no order for the pair rests) and the scan stops at a candidate `c`,
the event ends in a match exactly when NOT `c.price * flip < price * flip`, with
`flip = -1` for an incoming Buy (`'B'`) and `+1` otherwise (Sell); so a Buy
matches iff `c.price ≤ price` and a Sell matches iff `c.price ≥ price`. -/
theorem C3_crossing_rule (me : MatchingEngine) (firmId : Nat) (symbol : String)
    (side : Char) (price : ℚ) (it : Nat) (c : Order)
    (h0 : setCount me.orderQueue (Order.key firmId symbol) = 0)
    (hs : scan (isCounterparty symbol side) me.orderQueue = some (it, c)) :
    (MatchedWith me (onNewOrder me firmId symbol side price) firmId it c ↔
        ¬ c.price * (flip side : ℚ) < price * (flip side : ℚ)) ∧
      (side = 'B' → flip side = -1 ∧
        (MatchedWith me (onNewOrder me firmId symbol side price) firmId it c ↔
          c.price ≤ price)) ∧
      (side ≠ 'B' → flip side = 1 ∧
        (MatchedWith me (onNewOrder me firmId symbol side price) firmId it c ↔
          price ≤ c.price)) := by
  have hm := matchedWith_iff me firmId symbol side price it c h0 hs
  refine ⟨hm, ?_, ?_⟩
  · intro hb
    subst hb
    refine ⟨flip_buy, ?_⟩
    rw [hm, flip_buy]
    simp
  · intro hb
    refine ⟨flip_not_buy side hb, ?_⟩
    rw [hm, flip_not_buy side hb]
    simp

/-- C3 at a book holding a Sell of firm 1 at 10, for an incoming Buy of firm 2
at 12. -/
theorem C3_crossing_rule_witness :
    setCount sellAt10.orderQueue (Order.key 2 "X") = 0 ∧
      scan (isCounterparty "X" 'B') sellAt10.orderQueue = some (0, ⟨1, "X", 10, 'S'⟩) ∧
      ((MatchedWith sellAt10 (onNewOrder sellAt10 2 "X" 'B' 12) 2 0 ⟨1, "X", 10, 'S'⟩ ↔
          ¬ (10 : ℚ) * (flip 'B' : ℚ) < 12 * (flip 'B' : ℚ)) ∧
        ('B' = 'B' → flip 'B' = -1 ∧
          (MatchedWith sellAt10 (onNewOrder sellAt10 2 "X" 'B' 12) 2 0 ⟨1, "X", 10, 'S'⟩ ↔
            (10 : ℚ) ≤ 12)) ∧
        ('B' ≠ 'B' → flip 'B' = 1 ∧
          (MatchedWith sellAt10 (onNewOrder sellAt10 2 "X" 'B' 12) 2 0 ⟨1, "X", 10, 'S'⟩ ↔
            (12 : ℚ) ≤ 10))) :=
  ⟨by decide, by decide,
    C3_crossing_rule sellAt10 2 "X" 'B' 12 0 ⟨1, "X", 10, 'S'⟩ (by decide) (by decide)⟩

/-! ## Ledger effect of a match, with exact addition -/

theorem restingCount_zero_of_count (q : List Order) (firmId : Nat) (symbol : String)
    (h0 : setCount q (Order.key firmId symbol) = 0) :
    q.countP (isOrderOf firmId symbol) = 0 := by
  rw [List.countP_eq_zero]
  intro x hx
  simp [(setCount_eq_zero_iff _ _ _).mp h0 x hx]

/-- Ledger effect of the matching path when balances are added exactly. -/
theorem cross_ledger_effect (me : MatchingEngine) (firmId : Nat) (symbol : String)
    (side : Char) (price : ℚ) (it : Nat) (c : Order)
    (h0 : setCount me.orderQueue (Order.key firmId symbol) = 0)
    (hs : scan (isCounterparty symbol side) me.orderQueue = some (it, c))
    (hx : ¬ c.price * (flip side : ℚ) < price * (flip side : ℚ)) :
    c.ID ≠ firmId ∧
      balanceOf (onNewOrder me firmId symbol side price) firmId =
        balanceOf me firmId + price * (flip side : ℚ) ∧
      filledOf (onNewOrder me firmId symbol side price) firmId = filledOf me firmId + 1 ∧
      balanceOf (onNewOrder me firmId symbol side price) c.ID =
        balanceOf me c.ID - price * (flip side : ℚ) ∧
      filledOf (onNewOrder me firmId symbol side price) c.ID = filledOf me c.ID + 1 ∧
      ∀ p, p ≠ firmId → p ≠ c.ID →
        lookup (onNewOrder me firmId symbol side price).FirmList p = lookup me.FirmList p := by
  have hne := (candidate_facts _ firmId symbol side it c h0 hs).1
  rw [onNewOrder_cross me _ _ _ _ it c h0 hs hx]
  refine ⟨hne, ?_, ?_, ?_, ?_, ?_⟩
  · simp [balanceOf, firmOf_cross _ _ _ _ _ _ hne, Firm.completeOrder, Firm.newOrder]
  · simp [filledOf, firmOf_cross _ _ _ _ _ _ hne, Firm.completeOrder, Firm.newOrder]
  · simp [balanceOf, firmOf_cross _ _ _ _ _ _ hne, hne, Firm.completeOrder]
    ring
  · simp [filledOf, firmOf_cross _ _ _ _ _ _ hne, hne, Firm.completeOrder]
  · intro p hpf hpc
    exact lookup_cross _ _ _ _ _ _ p hpf hpc

/-! ## Ledger entries across a cancel -/

theorem filledOf_cancel (fl : List (Nat × Firm)) (q q1 : List Order) (firmId p : Nat) :
    filledOf ⟨callFirm fl firmId Firm.cancelOrder, q1⟩ p = filledOf ⟨fl, q⟩ p := by
  simp only [filledOf, firmOf_callFirm]
  split
  · subst_vars; rfl
  · rfl

theorem balanceOf_cancel (fl : List (Nat × Firm)) (q q1 : List Order) (firmId p : Nat) :
    balanceOf ⟨callFirm fl firmId Firm.cancelOrder, q1⟩ p = balanceOf ⟨fl, q⟩ p := by
  simp only [balanceOf, firmOf_callFirm]
  split
  · subst_vars; rfl
  · rfl

theorem sellAt10_eq : run MatchingEngine.empty [.N 1 "X" 'S' 10] = sellAt10 := by
  simp [run, step, onNewOrder, MatchingEngine.empty, setCount, scan, setInsert, insertPos,
    callFirm, getFirm, mapCount, mapInsert, mapInsertPos, Firm.newOrder, Firm.init, sellAt10]

theorem reachable_sellAt10 : Reachable sellAt10 := ⟨_, sellAt10_eq⟩

/-! ## Modify and Cancel -/

/-- An order for `(firmId, symbol)` in the book makes the scan of `onModify` and
`onCancel` stop. -/
theorem scan_isOrderOf_of_mem (q : List Order) (firmId : Nat) (symbol : String) (x : Order)
    (hx : x ∈ q) (hid : x.ID = firmId) (hsym : x.symbol = symbol) :
    ∃ it c, scan (isOrderOf firmId symbol) q = some (it, c) := by
  cases hs : scan (isOrderOf firmId symbol) q with
  | none =>
    have := (scan_eq_none_iff _ q).mp hs x hx
    simp [isOrderOf, hid, hsym] at this
  | some r => exact ⟨r.1, r.2, rfl⟩

/-- Under uniqueness the scan stops at the one order for `(firmId, symbol)`. -/
theorem scan_isOrderOf_unique (q : List Order) (firmId : Nat) (symbol : String) (x : Order)
    (it : Nat) (c : Order) (hu : q.countP (isOrderOf firmId symbol) ≤ 1)
    (hs : scan (isOrderOf firmId symbol) q = some (it, c))
    (hx : x ∈ q) (hid : x.ID = firmId) (hsym : x.symbol = symbol) : c = x := by
  obtain ⟨l1, l2, hq, hl1, hc, -⟩ := scan_eq_some _ q it c hs
  have hpx : isOrderOf firmId symbol x = true := (isOrderOf_iff _ _ _).mpr ⟨hid, hsym⟩
  rw [hq, List.countP_append, List.countP_cons, if_pos hc] at hu
  have hl2 : l2.countP (isOrderOf firmId symbol) = 0 := by omega
  rw [List.countP_eq_zero] at hl2
  rw [hq] at hx
  rcases List.mem_append.mp hx with h1 | h2
  · rw [hl1 x h1] at hpx
    exact absurd hpx Bool.false_ne_true
  · rcases List.mem_cons.mp h2 with rfl | h3
    · rfl
    · exact absurd hpx (hl2 x h3)

/-- C6 (modify equals cancel-then-new): in every state of the book (one order
per owner and symbol) in which an order `x` for `(o, s)` rests, for every price
`p`, `onModify(o, s, p)` gives the same book and ledger as `onCancel(o, s)`
followed by `onNewOrder(o, s, x.side, p)`. -/
theorem C6_modify_is_cancel_new (me : MatchingEngine) (o : Nat) (s : String) (p : ℚ)
    (x : Order) (hu : UniqueKeys me) (hx : x ∈ me.orderQueue) (hid : x.ID = o)
    (hsym : x.symbol = s) :
    onModify me o s p = onNewOrder (onCancel me o s) o s x.side p := by
  obtain ⟨it, c, hs⟩ := scan_isOrderOf_of_mem me.orderQueue o s x hx hid hsym
  have hc : c = x := scan_isOrderOf_unique me.orderQueue o s x it c (hu o s) hs hx hid hsym
  rw [onModify_found me o s p it c hs, onCancel_found me o s it c hs, hc]

/-- C6 at the state with one Sell of firm 1 at 10, modified to 12. -/
theorem C6_modify_is_cancel_new_witness :
    UniqueKeys sellAt10 ∧ (⟨1, "X", 10, 'S'⟩ : Order) ∈ sellAt10.orderQueue ∧
      onModify sellAt10 1 "X" 12 = onNewOrder (onCancel sellAt10 1 "X") 1 "X" 'S' 12 :=
  ⟨uniqueKeys_of_reachable _ reachable_sellAt10, by decide,
    C6_modify_is_cancel_new sellAt10 1 "X" 12 ⟨1, "X", 10, 'S'⟩
      (uniqueKeys_of_reachable _ reachable_sellAt10) (by decide) rfl rfl⟩

/-! ## Duplicate New -/

theorem setCount_ne_zero_of_mem (q : List Order) (firmId : Nat) (symbol : String) (x : Order)
    (hx : x ∈ q) (hid : x.ID = firmId) (hsym : x.symbol = symbol) :
    setCount q (Order.key firmId symbol) ≠ 0 := by
  intro h0
  have := (setCount_eq_zero_iff q firmId symbol).mp h0 x hx
  simp [isOrderOf, hid, hsym] at this

theorem length_eraseIdx_of_scan (p : Order → Bool) (q : List Order) (i : Nat) (c : Order)
    (h : scan p q = some (i, c)) : (q.eraseIdx i).length + 1 = q.length := by
  obtain ⟨l1, l2, hq, -, -, he⟩ := scan_eq_some p q i c h
  rw [he, hq]
  simp
  omega

theorem mem_insertPos_self (o : Order) (q : List Order) : o ∈ insertPos o q :=
  (insertPos_perm o q).mem_iff.mpr (List.mem_cons_self o q)

theorem setCount_eraseIdx (q : List Order) (firmId : Nat) (symbol : String) (it : Nat)
    (h0 : setCount q (Order.key firmId symbol) = 0) :
    setCount (q.eraseIdx it) (Order.key firmId symbol) = 0 := by
  rw [setCount_eq_zero_iff] at h0 ⊢
  intro x hx
  exact h0 x ((List.eraseIdx_sublist q it).subset hx)

/-- A second identical `onNewOrder` changes nothing exactly when the first one
did not match. -/
theorem onNewOrder_twice_iff (me : MatchingEngine) (firmId : Nat) (symbol : String)
    (side : Char) (price : ℚ) :
    onNewOrder (onNewOrder me firmId symbol side price) firmId symbol side price =
        onNewOrder me firmId symbol side price ↔
      newOrderMatch me firmId symbol side price = none := by
  rcases onNewOrder_cases me firmId symbol side price with
    ⟨h0, e⟩ | ⟨-, hm, e⟩ | ⟨h0, it, c, hs, -, hm, e⟩
  · have hm : newOrderMatch me firmId symbol side price = none := by
      simp [newOrderMatch, h0]
    rw [e, e, hm]
    simp
  · rw [hm, e]
    simp only [iff_true]
    apply onNewOrder_duplicate
    exact setCount_ne_zero_of_mem _ firmId symbol ⟨firmId, symbol, price, side⟩
      (mem_insertPos_self _ _) rfl rfl
  · rw [hm, e]
    simp only [reduceCtorEq, iff_false]
    intro heq
    have hlen := congrArg (fun m => m.orderQueue.length) heq
    simp only at hlen
    have h1 := setCount_eraseIdx me.orderQueue firmId symbol it h0
    rcases onNewOrder_cases
        ⟨callFirm
            (callFirm (callFirm me.FirmList firmId Firm.newOrder) firmId
              (Firm.completeOrder (price * (flip side : ℚ))))
            c.ID (Firm.completeOrder (-price * (flip side : ℚ))),
          me.orderQueue.eraseIdx it⟩ firmId symbol side price with
      ⟨h0', -⟩ | ⟨-, -, e'⟩ | ⟨-, it', c', hs', -, -, e'⟩
    · exact h0' h1
    · rw [e'] at hlen
      simp only [length_insertPos] at hlen
      omega
    · rw [e'] at hlen
      have := length_eraseIdx_of_scan _ _ it' c' hs'
      simp only at hlen this
      omega

/-- C7 as stated fails: from the reachable state with one Sell of firm 1 at 10,
the Buy of firm 2 at 10 matches and leaves an empty book; the same call again
rests the order, so the state after two calls differs from the state after one. -/
theorem C7_counterexample :
    Reachable sellAt10 ∧
      onNewOrder (onNewOrder sellAt10 2 "X" 'B' 10) 2 "X" 'B' 10 ≠
        onNewOrder sellAt10 2 "X" 'B' 10 ∧
      (onNewOrder sellAt10 2 "X" 'B' 10).orderQueue = [] ∧
      (onNewOrder (onNewOrder sellAt10 2 "X" 'B' 10) 2 "X" 'B' 10).orderQueue =
        [⟨2, "X", 10, 'B'⟩] := by
  have e1 : onNewOrder sellAt10 2 "X" 'B' 10 = ⟨[(1, ⟨0, 1, 10⟩), (2, ⟨0, 1, -10⟩)], []⟩ := by
    simp [onNewOrder, sellAt10, setCount, Order.equiv, Order.lt, Order.key, scan,
      isCounterparty, flip, callFirm, getFirm, mapCount, mapInsert, mapInsertPos,
      Firm.newOrder, Firm.completeOrder, Firm.init]
  have e2 : onNewOrder ⟨[(1, ⟨0, 1, 10⟩), (2, ⟨0, 1, -10⟩)], []⟩ 2 "X" 'B' 10 =
      ⟨[(1, ⟨0, 1, 10⟩), (2, ⟨1, 1, -10⟩)], [⟨2, "X", 10, 'B'⟩]⟩ := by
    simp [onNewOrder, setCount, scan, setInsert, insertPos, callFirm, getFirm, mapCount,
      Firm.newOrder]
  refine ⟨reachable_sellAt10, ?_, ?_, ?_⟩
  · rw [e1, e2]
    simp
  · rw [e1]
  · rw [e1, e2]

/-- C7 (amended): for every reachable state and every `(owner, symbol, side,
price)`, applying `onNewOrder` twice gives the same state as applying it once
exactly when the first call does not match (it is discarded as a duplicate or
the order rests). -/
theorem C7_new_twice (me : MatchingEngine) (firmId : Nat) (symbol : String)
    (side : Char) (price : ℚ) (_h : Reachable me) :
    onNewOrder (onNewOrder me firmId symbol side price) firmId symbol side price =
        onNewOrder me firmId symbol side price ↔
      newOrderMatch me firmId symbol side price = none :=
  onNewOrder_twice_iff me firmId symbol side price

/-- C7 (amended) at the reachable state with one Sell of firm 1 at 10, for a Buy
of firm 2 at 9, which rests. -/
theorem C7_new_twice_witness :
    Reachable sellAt10 ∧ newOrderMatch sellAt10 2 "X" 'B' 9 = none ∧
      onNewOrder (onNewOrder sellAt10 2 "X" 'B' 9) 2 "X" 'B' 9 =
        onNewOrder sellAt10 2 "X" 'B' 9 :=
  have hm : newOrderMatch sellAt10 2 "X" 'B' 9 = none := by
    simp [newOrderMatch, sellAt10, setCount, Order.equiv, Order.lt, Order.key, scan,
      isCounterparty, flip]
    norm_num
  ⟨reachable_sellAt10, hm, (C7_new_twice sellAt10 2 "X" 'B' 9 reachable_sellAt10).mpr hm⟩

/-- C8 (duplicate suppression): in every state in which an order `x` for
`(owner, symbol)` rests in the book, `onNewOrder(owner, symbol, side, price)`
leaves book and ledger unchanged, for every side and price. -/
theorem C8_duplicate_guard (me : MatchingEngine) (owner : Nat) (symbol : String)
    (side : Char) (price : ℚ) (x : Order) (hx : x ∈ me.orderQueue) (hid : x.ID = owner)
    (hsym : x.symbol = symbol) : onNewOrder me owner symbol side price = me :=
  onNewOrder_duplicate me owner symbol side price
    (setCount_ne_zero_of_mem me.orderQueue owner symbol x hx hid hsym)

/-- C8 at the state with one Sell of firm 1 at 10, for a Buy of firm 1 at 99. -/
theorem C8_duplicate_guard_witness :
    (⟨1, "X", 10, 'S'⟩ : Order) ∈ sellAt10.orderQueue ∧
      onNewOrder sellAt10 1 "X" 'B' 99 = sellAt10 :=
  ⟨by decide, C8_duplicate_guard sellAt10 1 "X" 'B' 99 ⟨1, "X", 10, 'S'⟩ (by decide) rfl rfl⟩

/-! ## Resting without a match -/

theorem sublist_insertPos (o : Order) (q : List Order) : q.Sublist (insertPos o q) := by
  induction q with
  | nil => exact List.nil_sublist _
  | cons x xs ih =>
    unfold insertPos
    split
    · exact List.sublist_cons_self o (x :: xs)
    · exact ih.cons₂ x

/-- C9 (resting without match): when `onNewOrder(owner, symbol, side, price)` is
accepted and either the scan finds no candidate or the candidate does not cross,
the new book is the old book plus the order `(owner, symbol, side, price)`:
it has the same orders as the new order followed by the old book, and the old
book is kept in its order; in the ledger the owner's entry is its old entry
(the zeroed entry of `Firm()` if it had none) with `liveOrders` one higher and
the same `filledOrders` and balance, and every other firm's entry is unchanged. -/
theorem C9_rest_without_match (me : MatchingEngine) (owner : Nat) (symbol : String)
    (side : Char) (price : ℚ)
    (h0 : setCount me.orderQueue (Order.key owner symbol) = 0)
    (hc : scan (isCounterparty symbol side) me.orderQueue = none ∨
      ∃ it c, scan (isCounterparty symbol side) me.orderQueue = some (it, c) ∧
        c.price * (flip side : ℚ) < price * (flip side : ℚ)) :
    (onNewOrder me owner symbol side price).orderQueue.Perm
        (⟨owner, symbol, price, side⟩ :: me.orderQueue) ∧
      me.orderQueue.Sublist (onNewOrder me owner symbol side price).orderQueue ∧
      lookup (onNewOrder me owner symbol side price).FirmList owner =
        some ⟨liveOf me owner + 1, filledOf me owner, balanceOf me owner⟩ ∧
      ∀ p, p ≠ owner →
        lookup (onNewOrder me owner symbol side price).FirmList p = lookup me.FirmList p := by
  have e : onNewOrder me owner symbol side price =
      ⟨callFirm me.FirmList owner Firm.newOrder,
        insertPos ⟨owner, symbol, price, side⟩ me.orderQueue⟩ := by
    rcases hc with hs | ⟨it, c, hs, hlt⟩
    · exact onNewOrder_no_candidate me _ _ _ _ h0 hs
    · exact onNewOrder_no_cross me _ _ _ _ it c h0 hs hlt
  rw [e]
  refine ⟨insertPos_perm _ _, sublist_insertPos _ _, ?_, ?_⟩
  · rw [lookup_callFirm_self]
    rfl
  · intro p hp
    exact lookup_callFirm_ne _ _ _ _ hp

/-- C9 at the state with one Sell of firm 1 at 10, for a Buy of firm 2 at 9: the
candidate does not cross and the Buy rests. -/
theorem C9_rest_without_match_witness :
    setCount sellAt10.orderQueue (Order.key 2 "X") = 0 ∧
      scan (isCounterparty "X" 'B') sellAt10.orderQueue = some (0, ⟨1, "X", 10, 'S'⟩) ∧
      (10 : ℚ) * (flip 'B' : ℚ) < 9 * (flip 'B' : ℚ) ∧
      (onNewOrder sellAt10 2 "X" 'B' 9).orderQueue.Perm
        (⟨2, "X", 9, 'B'⟩ :: sellAt10.orderQueue) ∧
      lookup (onNewOrder sellAt10 2 "X" 'B' 9).FirmList 2 =
        some ⟨liveOf sellAt10 2 + 1, filledOf sellAt10 2, balanceOf sellAt10 2⟩ :=
  have h := C9_rest_without_match sellAt10 2 "X" 'B' 9 (by decide)
    (Or.inr ⟨0, ⟨1, "X", 10, 'S'⟩, by decide, by norm_num [flip]⟩)
  ⟨by decide, by decide, by norm_num [flip], h.1, h.2.2.1⟩

/-! ## Cancel of a resting order -/

theorem eraseIdx_eq_erase_of_scan (p : Order → Bool) (q : List Order) (i : Nat) (c : Order)
    (h : scan p q = some (i, c)) : q.eraseIdx i = q.erase c := by
  obtain ⟨l1, l2, hq, hl1, hc, he⟩ := scan_eq_some p q i c h
  have hnot : c ∉ l1 := by
    intro hm
    rw [hl1 c hm] at hc
    exact Bool.false_ne_true hc
  rw [he, hq, List.erase_append_right _ hnot, List.erase_cons_head]

/-- C10 (effect of Cancel): in every state of the book (one order per owner and
symbol) in which an order `x` for `(owner, symbol)` rests, `onCancel(owner,
symbol)` gives the old book with exactly `x` removed, so that no order for
`(owner, symbol)` rests, and the old ledger with the owner's `liveOrders` one
lower; the owner's `filledOrders` and balance and every other firm's entry are
unchanged. -/
theorem C10_cancel_effect (me : MatchingEngine) (owner : Nat) (symbol : String)
    (x : Order) (hu : UniqueKeys me) (hx : x ∈ me.orderQueue) (hid : x.ID = owner)
    (hsym : x.symbol = symbol) :
    (onCancel me owner symbol).orderQueue = me.orderQueue.erase x ∧
      (x :: (onCancel me owner symbol).orderQueue).Perm me.orderQueue ∧
      restingCount (onCancel me owner symbol) owner symbol = 0 ∧
      lookup (onCancel me owner symbol).FirmList owner =
        some ⟨liveOf me owner - 1, filledOf me owner, balanceOf me owner⟩ ∧
      ∀ p, p ≠ owner →
        lookup (onCancel me owner symbol).FirmList p = lookup me.FirmList p := by
  obtain ⟨it, c, hs⟩ := scan_isOrderOf_of_mem me.orderQueue owner symbol x hx hid hsym
  have hc : c = x :=
    scan_isOrderOf_unique me.orderQueue owner symbol x it c (hu owner symbol) hs hx hid hsym
  subst hc
  have he := eraseIdx_eq_erase_of_scan _ _ it c hs
  rw [onCancel_found me owner symbol it c hs]
  refine ⟨he, ?_, ?_, ?_, ?_⟩
  · show (c :: me.orderQueue.eraseIdx it).Perm me.orderQueue
    rw [he]
    exact (List.perm_cons_erase hx).symm
  · have h1 := countP_of_scan _ (isOrderOf owner symbol) _ it c hs
    have h2 := hu owner symbol
    have h3 : isOrderOf owner symbol c = true := (isOrderOf_iff _ _ _).mpr ⟨hid, hsym⟩
    simp only [restingCount] at h2 ⊢
    rw [h1, if_pos h3] at h2
    omega
  · rw [lookup_callFirm_self]
    rfl
  · intro p hp
    exact lookup_callFirm_ne _ _ _ _ hp

/-- C10 at the state with one Sell of firm 1 at 10. -/
theorem C10_cancel_effect_witness :
    UniqueKeys sellAt10 ∧ (⟨1, "X", 10, 'S'⟩ : Order) ∈ sellAt10.orderQueue ∧
      (onCancel sellAt10 1 "X").orderQueue = sellAt10.orderQueue.erase ⟨1, "X", 10, 'S'⟩ ∧
      lookup (onCancel sellAt10 1 "X").FirmList 1 =
        some ⟨liveOf sellAt10 1 - 1, filledOf sellAt10 1, balanceOf sellAt10 1⟩ :=
  have h := C10_cancel_effect sellAt10 1 "X" ⟨1, "X", 10, 'S'⟩
    (uniqueKeys_of_reachable _ reachable_sellAt10) (by decide) rfl rfl
  ⟨uniqueKeys_of_reachable _ reachable_sellAt10, by decide, h.1, h.2.2.2.1⟩

/-! ## Modify and Cancel of an order that is not in the book -/

theorem scan_isOrderOf_none (q : List Order) (firmId : Nat) (symbol : String)
    (h : ∀ x ∈ q, ¬ (x.ID = firmId ∧ x.symbol = symbol)) :
    scan (isOrderOf firmId symbol) q = none := by
  rw [scan_eq_none_iff]
  intro x hx
  have := h x hx
  rw [← isOrderOf_iff] at this
  simpa using this

/-- C11 (Modify/Cancel of a non-existent order): in every state in which no
order for `(owner, symbol)` rests, `onModify(owner, symbol, p)` and
`onCancel(owner, symbol)` each leave the book and the ledger unchanged, for
every price `p`. -/
theorem C11_absent_noop (me : MatchingEngine) (owner : Nat) (symbol : String) (p : ℚ)
    (h : ∀ x ∈ me.orderQueue, ¬ (x.ID = owner ∧ x.symbol = symbol)) :
    onModify me owner symbol p = me ∧ onCancel me owner symbol = me :=
  ⟨onModify_absent me owner symbol p (scan_isOrderOf_none _ _ _ h),
    onCancel_absent me owner symbol (scan_isOrderOf_none _ _ _ h)⟩

/-- C11 at the state with one Sell of firm 1 for "X": firm 2 has no order for
"X". -/
theorem C11_absent_noop_witness :
    (∀ x ∈ sellAt10.orderQueue, ¬ (x.ID = 2 ∧ x.symbol = "X")) ∧
      onModify sellAt10 2 "X" 7 = sellAt10 ∧ onCancel sellAt10 2 "X" = sellAt10 :=
  ⟨by decide, C11_absent_noop sellAt10 2 "X" 7 (by decide)⟩

/-! ## Equal prices cross -/

/-- An incoming order at the price of the only resting order for the symbol,
owned by another firm and on another side, matches it. -/
theorem equal_price_match (me : MatchingEngine) (a b : Nat) (s : String) (P : ℚ)
    (d1 d2 : Char) (hab : a ≠ b) (hd : d1 ≠ d2)
    (hx : (⟨a, s, P, d1⟩ : Order) ∈ me.orderQueue)
    (honly : ∀ y ∈ me.orderQueue, y.symbol = s → y = ⟨a, s, P, d1⟩) :
    (onNewOrder me b s d2 P).orderQueue = me.orderQueue.erase ⟨a, s, P, d1⟩ ∧
      restingCount (onNewOrder me b s d2 P) b s = 0 ∧
      filledOf (onNewOrder me b s d2 P) a = filledOf me a + 1 ∧
      filledOf (onNewOrder me b s d2 P) b = filledOf me b + 1 := by
  have h0 : setCount me.orderQueue (Order.key b s) = 0 := by
    rw [setCount_eq_zero_iff]
    intro y hy
    by_contra hp
    have hp' : isOrderOf b s y = true := by simpa using hp
    obtain ⟨hid, hsym⟩ := (isOrderOf_iff _ _ _).mp hp'
    have := honly y hy hsym
    rw [this] at hid
    exact hab hid
  have hsome : ∃ it c, scan (isCounterparty s d2) me.orderQueue = some (it, c) := by
    cases hs : scan (isCounterparty s d2) me.orderQueue with
    | none =>
      have := (scan_eq_none_iff _ _).mp hs _ hx
      simp [isCounterparty, hd] at this
    | some r => exact ⟨r.1, r.2, rfl⟩
  obtain ⟨it, c, hs⟩ := hsome
  have hc : c = ⟨a, s, P, d1⟩ :=
    honly c (scan_mem _ _ it c hs) (candidate_facts _ b s d2 it c h0 hs).2.1
  have hcross : ¬ c.price * (flip d2 : ℚ) < P * (flip d2 : ℚ) := by
    rw [hc]
    exact lt_irrefl _
  have hl := cross_ledger_effect me b s d2 P it c h0 hs hcross
  have hq : (onNewOrder me b s d2 P).orderQueue = me.orderQueue.eraseIdx it := by
    rw [onNewOrder_cross me b s d2 P it c h0 hs hcross]
  refine ⟨?_, ?_, ?_, hl.2.2.1⟩
  · rw [hq, eraseIdx_eq_erase_of_scan _ _ it c hs, hc]
  · have hz := restingCount_zero_of_count _ b s h0
    have hle := (List.eraseIdx_sublist me.orderQueue it).countP_le (isOrderOf b s)
    simp only [restingCount, hq]
    omega
  · have := hl.2.2.2.2.1
    rw [hc] at this
    exact this

/-- C12 (crossability boundary): for every price `P`, symbol `s` and distinct
owners `a`, `b`: from a state whose only resting order for `s` is `a`'s Buy at
`P`, `onNewOrder(b, s, Sell, P)` matches, and from a state whose only resting
order for `s` is `a`'s Sell at `P`, `onNewOrder(b, s, Buy, P)` matches: `a`'s
order is removed from the book, no order of `b` for `s` is inserted, and the
`filledOrders` of `a` and of `b` each grow by 1. -/
theorem C12_equal_price_crosses (me : MatchingEngine) (a b : Nat) (s : String) (P : ℚ)
    (hab : a ≠ b) :
    ((⟨a, s, P, 'B'⟩ : Order) ∈ me.orderQueue →
      (∀ y ∈ me.orderQueue, y.symbol = s → y = ⟨a, s, P, 'B'⟩) →
      (onNewOrder me b s 'S' P).orderQueue = me.orderQueue.erase ⟨a, s, P, 'B'⟩ ∧
        restingCount (onNewOrder me b s 'S' P) b s = 0 ∧
        filledOf (onNewOrder me b s 'S' P) a = filledOf me a + 1 ∧
        filledOf (onNewOrder me b s 'S' P) b = filledOf me b + 1) ∧
    ((⟨a, s, P, 'S'⟩ : Order) ∈ me.orderQueue →
      (∀ y ∈ me.orderQueue, y.symbol = s → y = ⟨a, s, P, 'S'⟩) →
      (onNewOrder me b s 'B' P).orderQueue = me.orderQueue.erase ⟨a, s, P, 'S'⟩ ∧
        restingCount (onNewOrder me b s 'B' P) b s = 0 ∧
        filledOf (onNewOrder me b s 'B' P) a = filledOf me a + 1 ∧
        filledOf (onNewOrder me b s 'B' P) b = filledOf me b + 1) :=
  ⟨fun hx honly => equal_price_match me a b s P 'B' 'S' hab (by decide) hx honly,
    fun hx honly => equal_price_match me a b s P 'S' 'B' hab (by decide) hx honly⟩

/-- C12 at the state whose only order is the Sell of firm 1 for "X" at 10, for
the Buy of firm 2 at 10. -/
theorem C12_equal_price_crosses_witness :
    (1 : Nat) ≠ 2 ∧ (⟨1, "X", 10, 'S'⟩ : Order) ∈ sellAt10.orderQueue ∧
      (∀ y ∈ sellAt10.orderQueue, y.symbol = "X" → y = ⟨1, "X", 10, 'S'⟩) ∧
      (onNewOrder sellAt10 2 "X" 'B' 10).orderQueue =
        sellAt10.orderQueue.erase ⟨1, "X", 10, 'S'⟩ ∧
      restingCount (onNewOrder sellAt10 2 "X" 'B' 10) 2 "X" = 0 ∧
      filledOf (onNewOrder sellAt10 2 "X" 'B' 10) 1 = filledOf sellAt10 1 + 1 ∧
      filledOf (onNewOrder sellAt10 2 "X" 'B' 10) 2 = filledOf sellAt10 2 + 1 :=
  ⟨by decide, by decide, by decide,
    (C12_equal_price_crosses sellAt10 1 2 "X" 10 (by decide)).2 (by decide) (by decide)⟩

/-! ## Cancel after a match, and no self-match -/

theorem setCount_zero_of_countP (q : List Order) (firmId : Nat) (symbol : String)
    (h : q.countP (isOrderOf firmId symbol) = 0) :
    setCount q (Order.key firmId symbol) = 0 := by
  rw [setCount_eq_zero_iff]
  rw [List.countP_eq_zero] at h
  intro x hx
  simpa using h x hx

theorem onCancel_of_countP_zero (me : MatchingEngine) (firmId : Nat) (symbol : String)
    (h : restingCount me firmId symbol = 0) : onCancel me firmId symbol = me := by
  apply onCancel_absent
  rw [scan_eq_none_iff]
  simp only [restingCount, List.countP_eq_zero] at h
  intro x hx
  simpa using h x hx

/-- Under uniqueness, erasing the order the scan for `(firmId, symbol)` stops at
leaves no order for that pair. -/
theorem countP_eraseIdx_own (q : List Order) (firmId : Nat) (symbol : String) (it : Nat)
    (c : Order) (hu : q.countP (isOrderOf firmId symbol) ≤ 1)
    (hs : scan (isOrderOf firmId symbol) q = some (it, c)) :
    (q.eraseIdx it).countP (isOrderOf firmId symbol) = 0 := by
  have h1 := countP_of_scan _ (isOrderOf firmId symbol) _ it c hs
  have h3 : isOrderOf firmId symbol c = true :=
    (isOrderOf_iff _ _ _).mpr (scan_isOrderOf firmId symbol q it c hs)
  rw [h1, if_pos h3] at hu
  omega

/-- After a match neither firm has an order for the symbol in the book. -/
theorem newOrderMatch_resting (me : MatchingEngine) (firmId : Nat) (symbol : String)
    (side : Char) (price : ℚ) (a b : Nat) (hu : UniqueKeys me)
    (hm : newOrderMatch me firmId symbol side price = some (a, b)) :
    a = firmId ∧ a ≠ b ∧
      restingCount (onNewOrder me firmId symbol side price) a symbol = 0 ∧
      restingCount (onNewOrder me firmId symbol side price) b symbol = 0 := by
  rcases onNewOrder_cases me firmId symbol side price with
    ⟨h0, -⟩ | ⟨-, hn, -⟩ | ⟨h0, it, c, hs, -, hm', e⟩
  · simp [newOrderMatch, h0] at hm
  · rw [hn] at hm
    exact absurd hm (by simp)
  · rw [hm'] at hm
    simp only [Option.some.injEq, Prod.mk.injEq] at hm
    obtain ⟨rfl, rfl⟩ := hm
    obtain ⟨hne, hsym, -⟩ := candidate_facts _ firmId symbol side it c h0 hs
    rw [e]
    refine ⟨rfl, fun h => hne h.symm, ?_, ?_⟩
    · have hz := restingCount_zero_of_count _ firmId symbol h0
      have hle := (List.eraseIdx_sublist me.orderQueue it).countP_le
        (isOrderOf firmId symbol)
      simp only [restingCount]
      omega
    · have h1 := countP_of_scan _ (isOrderOf c.ID symbol) _ it c hs
      have h2 := hu c.ID symbol
      have h3 : isOrderOf c.ID symbol c = true := (isOrderOf_iff _ _ _).mpr ⟨rfl, hsym⟩
      simp only [restingCount] at h2 ⊢
      rw [h1, if_pos h3] at h2
      omega

/-- After an event that matched, neither firm has an order for the event's
symbol in the book. -/
theorem eventMatch_resting (me : MatchingEngine) (e : Event) (a b : Nat)
    (hu : UniqueKeys me) (hm : eventMatch me e = some (a, b)) :
    a = e.firmId ∧ a ≠ b ∧ restingCount (step me e) a e.symbol = 0 ∧
      restingCount (step me e) b e.symbol = 0 := by
  cases e with
  | N firmId symbol side price => exact newOrderMatch_resting me _ _ _ _ a b hu hm
  | M firmId symbol price =>
    show a = firmId ∧ a ≠ b ∧ restingCount (onModify me firmId symbol price) a symbol = 0 ∧
      restingCount (onModify me firmId symbol price) b symbol = 0
    cases hs : scan (isOrderOf firmId symbol) me.orderQueue with
    | none => simp [eventMatch, hs] at hm
    | some r =>
      obtain ⟨it, c⟩ := r
      rw [onModify_found me _ _ _ it c hs]
      simp only [eventMatch, hs] at hm
      exact newOrderMatch_resting _ _ _ _ _ a b (uniqueKeys_eraseIdx _ _ _ it hu) hm
  | C firmId symbol => simp [eventMatch] at hm

/-- C14 (cancel of a matched order): from every reachable state, when an event
(`onNewOrder` directly, or through `onModify`) for owner `o` and symbol `s`
matches a candidate owned by `c`, then in the resulting state `onCancel(o, s)`
and `onCancel(c, s)` each leave the book and the ledger unchanged. -/
theorem C14_cancel_after_match (me : MatchingEngine) (e : Event) (o c : Nat)
    (h : Reachable me) (hm : eventMatch me e = some (o, c)) :
    o = e.firmId ∧ onCancel (step me e) o e.symbol = step me e ∧
      onCancel (step me e) c e.symbol = step me e := by
  obtain ⟨ho, -, h1, h2⟩ := eventMatch_resting me e o c (uniqueKeys_of_reachable me h) hm
  exact ⟨ho, onCancel_of_countP_zero _ _ _ h1, onCancel_of_countP_zero _ _ _ h2⟩

/-- C14 at the reachable state with one Sell of firm 1 at 10, after the Buy of
firm 2 at 12 matched it. -/
theorem C14_cancel_after_match_witness :
    Reachable sellAt10 ∧ eventMatch sellAt10 (.N 2 "X" 'B' 12) = some (2, 1) ∧
      onCancel (step sellAt10 (.N 2 "X" 'B' 12)) 2 "X" = step sellAt10 (.N 2 "X" 'B' 12) ∧
      onCancel (step sellAt10 (.N 2 "X" 'B' 12)) 1 "X" = step sellAt10 (.N 2 "X" 'B' 12) :=
  have hm : eventMatch sellAt10 (.N 2 "X" 'B' 12) = some (2, 1) := by
    simp [eventMatch, newOrderMatch, sellAt10, setCount, Order.equiv, Order.lt, Order.key,
      scan, isCounterparty, flip]
    norm_num
  ⟨reachable_sellAt10, hm,
    (C14_cancel_after_match sellAt10 (.N 2 "X" 'B' 12) 2 1 reachable_sellAt10 hm).2⟩

/-- C17 (no self-match): in every reachable state, a candidate selected by
`onNewOrder(firmId, symbol, side, price)` called directly, or called from
`onModify(firmId, symbol, price)` after the erase of the firm's own order, is
owned by a firm other than `firmId`; hence the two firms of every match are
distinct. -/
theorem C17_no_self_match (me : MatchingEngine) (firmId : Nat) (symbol : String)
    (h : Reachable me) :
    (∀ side it c, setCount me.orderQueue (Order.key firmId symbol) = 0 →
        scan (isCounterparty symbol side) me.orderQueue = some (it, c) → c.ID ≠ firmId) ∧
      (∀ it0 cur it c, scan (isOrderOf firmId symbol) me.orderQueue = some (it0, cur) →
        scan (isCounterparty symbol cur.side) (me.orderQueue.eraseIdx it0) = some (it, c) →
        c.ID ≠ firmId) ∧
      (∀ e a b, eventMatch me e = some (a, b) → a ≠ b) := by
  have hu := uniqueKeys_of_reachable me h
  refine ⟨?_, ?_, ?_⟩
  · intro side it c h0 hs
    exact (candidate_facts _ firmId symbol side it c h0 hs).1
  · intro it0 cur it c hs0 hs
    have hz := countP_eraseIdx_own me.orderQueue firmId symbol it0 cur (hu firmId symbol) hs0
    exact (candidate_facts _ firmId symbol cur.side it c
      (setCount_zero_of_countP _ _ _ hz) hs).1
  · intro e a b hm
    exact (eventMatch_resting me e a b hu hm).2.1

/-- C17 at the reachable state with one Sell of firm 1 at 10: the candidate of a
Buy of firm 2 is the order of firm 1. -/
theorem C17_no_self_match_witness :
    Reachable sellAt10 ∧ setCount sellAt10.orderQueue (Order.key 2 "X") = 0 ∧
      scan (isCounterparty "X" 'B') sellAt10.orderQueue = some (0, ⟨1, "X", 10, 'S'⟩) ∧
      (⟨1, "X", 10, 'S'⟩ : Order).ID ≠ 2 :=
  ⟨reachable_sellAt10, by decide, by decide,
    (C17_no_self_match sellAt10 2 "X" reachable_sellAt10).1 'B' 0 ⟨1, "X", 10, 'S'⟩
      (by decide) (by decide)⟩

/-! ## The scenario of the specification -/

theorem applTwoResting_eq :
    run MatchingEngine.empty [.N 1738 "APPL" 'B' 1500.50, .N 2001 "APPL" 'S' 1500.51] =
      applTwoResting := by
  simp [run, step, onNewOrder, MatchingEngine.empty, setCount, scan, setInsert, insertPos,
    callFirm, getFirm, mapCount, mapInsert, mapInsertPos, Firm.newOrder, Firm.init,
    applTwoResting, Order.equiv, Order.lt, Order.key, isCounterparty, flip]
  norm_num

theorem applMatched_eq :
    step applTwoResting (.M 2001 "APPL" 1500.48) = applMatched := by
  simp [step, onModify, onNewOrder, setCount, scan, setInsert, insertPos,
    callFirm, getFirm, mapCount, mapInsert, mapInsertPos, Firm.newOrder, Firm.cancelOrder,
    Firm.completeOrder, Firm.init, applTwoResting, applMatched, Order.equiv, Order.lt,
    Order.key, isCounterparty, isOrderOf, flip]
  norm_num

/-- C13 (scenario of the specification): from the freshly constructed engine,
after `New(1738, "APPL", Buy, 1500.50)` and `New(2001, "APPL", Sell, 1500.51)`
the second message does not match and both orders rest, each firm with
`liveOrders = 1`, `filledOrders = 0` and balance 0; after the further message
`Modify(2001, "APPL", 1500.48)` the book is empty, both firms have
`liveOrders = 0` and `filledOrders = 1`, firm 2001 has balance `+1500.48` and
firm 1738 has balance `-1500.48`. -/
theorem C13_scenario :
    eventMatch (run MatchingEngine.empty [.N 1738 "APPL" 'B' 1500.50])
        (.N 2001 "APPL" 'S' 1500.51) = none ∧
      (run MatchingEngine.empty
          [.N 1738 "APPL" 'B' 1500.50, .N 2001 "APPL" 'S' 1500.51]).orderQueue =
        [⟨2001, "APPL", 1500.51, 'S'⟩, ⟨1738, "APPL", 1500.50, 'B'⟩] ∧
      (run MatchingEngine.empty
          [.N 1738 "APPL" 'B' 1500.50, .N 2001 "APPL" 'S' 1500.51]).FirmList =
        [(1738, ⟨1, 0, 0⟩), (2001, ⟨1, 0, 0⟩)] ∧
      (run MatchingEngine.empty
          [.N 1738 "APPL" 'B' 1500.50, .N 2001 "APPL" 'S' 1500.51,
            .M 2001 "APPL" 1500.48]).orderQueue = [] ∧
      (run MatchingEngine.empty
          [.N 1738 "APPL" 'B' 1500.50, .N 2001 "APPL" 'S' 1500.51,
            .M 2001 "APPL" 1500.48]).FirmList =
        [(1738, ⟨0, 1, -1500.48⟩), (2001, ⟨0, 1, 1500.48⟩)] := by
  have h3 : run MatchingEngine.empty
      [.N 1738 "APPL" 'B' 1500.50, .N 2001 "APPL" 'S' 1500.51, .M 2001 "APPL" 1500.48] =
      applMatched := by
    have : run MatchingEngine.empty
        [.N 1738 "APPL" 'B' 1500.50, .N 2001 "APPL" 'S' 1500.51, .M 2001 "APPL" 1500.48] =
        step (run MatchingEngine.empty
          [.N 1738 "APPL" 'B' 1500.50, .N 2001 "APPL" 'S' 1500.51])
          (.M 2001 "APPL" 1500.48) := rfl
    rw [this, applTwoResting_eq, applMatched_eq]
  rw [h3, applTwoResting_eq]
  refine ⟨?_, rfl, rfl, rfl, rfl⟩
  simp [run, step, onNewOrder, MatchingEngine.empty, setCount, scan, setInsert, insertPos,
    callFirm, getFirm, mapCount, mapInsert, mapInsertPos, Firm.newOrder, Firm.init,
    Order.equiv, Order.lt, Order.key, isCounterparty, flip, eventMatch, newOrderMatch]
  norm_num

/-! ## Only the first candidate is considered -/

theorem twoSells_eq :
    run MatchingEngine.empty [.N 3000 "X" 'S' 200, .N 1000 "X" 'S' 50] = twoSells := by
  simp [run, step, onNewOrder, MatchingEngine.empty, setCount, scan, setInsert, insertPos,
    callFirm, getFirm, mapCount, mapInsert, mapInsertPos, Firm.newOrder, Firm.init,
    twoSells, Order.equiv, Order.lt, Order.key, isCounterparty, flip]

/-- C18 (first candidate, not best price): in the reachable state with the
resting orders `Sell(3000, "X", 200)` and `Sell(1000, "X", 50)`, the book holds
the Sell of firm 1000 at 50, which is on the other side of an incoming
`Buy(2000, "X", 100)` and whose price crosses with it; yet the scan of
`onNewOrder(2000, "X", Buy, 100)` stops at the Sell of firm 3000 at 200, which
does not cross, so there is no match, nothing is removed and the Buy rests next
to the Sell at 50, with every firm's `filledOrders` and balance unchanged. -/
theorem C18_first_candidate_only :
    Reachable twoSells ∧
      (⟨1000, "X", 50, 'S'⟩ : Order) ∈ twoSells.orderQueue ∧
      isCounterparty "X" 'B' ⟨1000, "X", 50, 'S'⟩ = true ∧
      ¬ (50 : ℚ) * (flip 'B' : ℚ) < 100 * (flip 'B' : ℚ) ∧
      scan (isCounterparty "X" 'B') twoSells.orderQueue = some (0, ⟨3000, "X", 200, 'S'⟩) ∧
      (200 : ℚ) * (flip 'B' : ℚ) < 100 * (flip 'B' : ℚ) ∧
      newOrderMatch twoSells 2000 "X" 'B' 100 = none ∧
      onNewOrder twoSells 2000 "X" 'B' 100 =
        ⟨[(1000, ⟨1, 0, 0⟩), (2000, ⟨1, 0, 0⟩), (3000, ⟨1, 0, 0⟩)],
          [⟨3000, "X", 200, 'S'⟩, ⟨2000, "X", 100, 'B'⟩, ⟨1000, "X", 50, 'S'⟩]⟩ := by
  refine ⟨⟨_, twoSells_eq⟩, by decide, by decide, by norm_num [flip], by decide,
    by norm_num [flip], ?_, ?_⟩
  · simp [newOrderMatch, twoSells, setCount, Order.equiv, Order.lt, Order.key, scan,
      isCounterparty, flip]
    norm_num
  · simp [onNewOrder, twoSells, setCount, Order.equiv, Order.lt, Order.key, scan,
      isCounterparty, flip, setInsert, insertPos, callFirm, getFirm, mapCount, mapInsert,
      mapInsertPos, Firm.newOrder, Firm.init]
    norm_num

/-! ## The ledger stays in ascending key order -/

theorem mapInsertPos_perm (e : Nat × Firm) (fl : List (Nat × Firm)) :
    (mapInsertPos e fl).Perm (e :: fl) := by
  induction fl with
  | nil => exact List.Perm.refl _
  | cons x xs ih =>
    unfold mapInsertPos
    split
    · exact List.Perm.refl _
    · exact (List.Perm.cons x ih).trans (List.Perm.swap e x xs)

theorem ledgerSorted_mapInsertPos (e : Nat × Firm) (fl : List (Nat × Firm))
    (hs : LedgerSorted fl) (hne : ∀ x ∈ fl, x.1 ≠ e.1) :
    LedgerSorted (mapInsertPos e fl) := by
  induction fl with
  | nil => simp [mapInsertPos, LedgerSorted]
  | cons x xs ih =>
    have hx : x.1 ≠ e.1 := hne x (List.mem_cons_self _ _)
    have hxs : ∀ y ∈ xs, y.1 ≠ e.1 := fun y hy => hne y (List.mem_cons_of_mem _ hy)
    simp only [LedgerSorted, List.map_cons, List.pairwise_cons] at hs
    obtain ⟨hhead, htail⟩ := hs
    unfold mapInsertPos
    split
    · rename_i hlt
      simp only [LedgerSorted, List.map_cons, List.pairwise_cons]
      refine ⟨?_, hhead, htail⟩
      intro k hk
      rcases List.mem_cons.mp hk with rfl | hk
      · exact hlt
      · exact lt_trans hlt (hhead k hk)
    · rename_i hnlt
      have ih' := ih htail hxs
      simp only [LedgerSorted, List.map_cons, List.pairwise_cons]
      refine ⟨?_, ih'⟩
      intro k hk
      obtain ⟨y, hy, rfl⟩ := List.mem_map.mp hk
      rcases List.mem_cons.mp ((mapInsertPos_perm e xs).mem_iff.mp hy) with rfl | hy
      · omega
      · exact hhead y.1 (List.mem_map.mpr ⟨y, hy, rfl⟩)

theorem ledgerSorted_getFirm (fl : List (Nat × Firm)) (firmId : Nat)
    (hs : LedgerSorted fl) : LedgerSorted (getFirm fl firmId) := by
  unfold getFirm mapInsert
  by_cases hc : mapCount fl firmId = true
  · simp [hc, hs]
  · have h' : mapCount fl firmId = false := by simpa using hc
    simp only [h', Bool.not_false, if_true, Bool.false_eq_true, if_false]
    apply ledgerSorted_mapInsertPos _ _ hs
    intro x hx e
    exact hc (List.any_eq_true.mpr ⟨x, hx, by simpa using e⟩)

theorem keys_map_entry (fl : List (Nat × Firm)) (firmId : Nat) (m : Firm → Firm) :
    (fl.map (fun e => if e.1 = firmId then (e.1, m e.2) else e)).map Prod.fst =
      fl.map Prod.fst := by
  rw [List.map_map]
  apply List.map_congr_left
  intro e _
  simp only [Function.comp]
  split <;> rfl

theorem ledgerSorted_callFirm (fl : List (Nat × Firm)) (firmId : Nat) (m : Firm → Firm)
    (hs : LedgerSorted fl) : LedgerSorted (callFirm fl firmId m) := by
  unfold callFirm LedgerSorted
  rw [keys_map_entry]
  exact ledgerSorted_getFirm fl firmId hs

/-- A property of the ledger that every `getFirm(id).m()` keeps is kept by every
event. -/
theorem ledger_step (P : List (Nat × Firm) → Prop)
    (hP : ∀ fl firmId m, P fl → P (callFirm fl firmId m)) (me : MatchingEngine) (e : Event)
    (h : P me.FirmList) : P (step me e).FirmList := by
  have hnew : ∀ (me : MatchingEngine) firmId symbol side price, P me.FirmList →
      P (onNewOrder me firmId symbol side price).FirmList := by
    intro me firmId symbol side price h
    rcases onNewOrder_cases me firmId symbol side price with
      ⟨-, e⟩ | ⟨-, -, e⟩ | ⟨-, it, c, -, -, -, e⟩
    · rw [e]; exact h
    · rw [e]; exact hP _ _ _ h
    · rw [e]; exact hP _ _ _ (hP _ _ _ (hP _ _ _ h))
  cases e with
  | N firmId symbol side price => exact hnew me _ _ _ _ h
  | M firmId symbol price =>
    show P (onModify me firmId symbol price).FirmList
    cases hs : scan (isOrderOf firmId symbol) me.orderQueue with
    | none => rw [onModify_absent me _ _ _ hs]; exact h
    | some r =>
      obtain ⟨it, c⟩ := r
      rw [onModify_found me _ _ _ it c hs]
      exact hnew _ _ _ _ _ (hP _ _ _ h)
  | C firmId symbol =>
    show P (onCancel me firmId symbol).FirmList
    cases hs : scan (isOrderOf firmId symbol) me.orderQueue with
    | none => rw [onCancel_absent me _ _ hs]; exact h
    | some r =>
      obtain ⟨it, c⟩ := r
      rw [onCancel_found me _ _ it c hs]
      exact hP _ _ _ h

theorem ledgerSorted_of_reachable (me : MatchingEngine) (h : Reachable me) :
    LedgerSorted me.FirmList :=
  reachable_induction (fun me => LedgerSorted me.FirmList)
    (by simp [LedgerSorted, MatchingEngine.empty])
    (fun me e h => ledger_step LedgerSorted ledgerSorted_callFirm me e h) me h

theorem mem_of_lookup (fl : List (Nat × Firm)) (firmId : Nat) (F : Firm)
    (h : lookup fl firmId = some F) : (firmId, F) ∈ fl := by
  unfold lookup at h
  cases hf : fl.find? (fun e => e.1 == firmId) with
  | none => simp [hf] at h
  | some y =>
    simp only [hf, Option.map_some', Option.some.injEq] at h
    have hp := List.find?_some hf
    have hm := List.mem_of_find?_eq_some hf
    have hy : y = (firmId, F) := by
      cases y with
      | mk k v =>
        simp only at hp h
        simp [beq_iff_eq] at hp
        rw [hp, h]
    rw [← hy]
    exact hm

theorem lookup_of_mem (fl : List (Nat × Firm)) (firmId : Nat) (F : Firm)
    (hs : LedgerSorted fl) (h : (firmId, F) ∈ fl) : lookup fl firmId = some F := by
  induction fl with
  | nil => simp at h
  | cons x xs ih =>
    simp only [LedgerSorted, List.map_cons, List.pairwise_cons] at hs
    obtain ⟨hhead, htail⟩ := hs
    rcases List.mem_cons.mp h with rfl | hm
    · simp [lookup]
    · have hlt : x.1 < firmId := hhead firmId (List.mem_map.mpr ⟨(firmId, F), hm, rfl⟩)
      have hne : (x.1 == firmId) = false := by
        simp only [beq_eq_false_iff_ne, ne_eq]
        omega
      have := ih htail hm
      unfold lookup at this ⊢
      rw [List.find?_cons, hne]
      exact this

/-- C15 (snapshot order): in every reachable state the lines of `print` have
strictly ascending firm ids, so no firm is listed twice, and a line
`(id, liveOrders, filledOrders, balance)` is printed exactly when the ledger
entry of firm `id` has these counters: every firm in the ledger is listed, with
its current counters. -/
theorem C15_snapshot_order (me : MatchingEngine) (h : Reachable me) :
    ((print me).map Prod.fst).Pairwise (fun a b => a < b) ∧
      ((print me).map Prod.fst).Nodup ∧
      (print me).length = me.FirmList.length ∧
      ∀ firmId l f b,
        (firmId, l, f, b) ∈ print me ↔ lookup me.FirmList firmId = some ⟨l, f, b⟩ := by
  have hs := ledgerSorted_of_reachable me h
  have hkeys : (print me).map Prod.fst = me.FirmList.map Prod.fst := by
    simp [print, List.map_map, Function.comp_def]
  refine ⟨?_, ?_, by simp [print], ?_⟩
  · rw [hkeys]; exact hs
  · rw [hkeys]
    exact List.Pairwise.imp (fun hab => ne_of_lt hab) hs
  · intro firmId l f b
    constructor
    · intro hm
      simp only [print, List.mem_map, Prod.mk.injEq] at hm
      obtain ⟨⟨k, F⟩, hmem, rfl, rfl, rfl, rfl⟩ := hm
      exact lookup_of_mem _ _ _ hs hmem
    · intro hl
      have hmem := mem_of_lookup _ _ _ hl
      simp only [print, List.mem_map, Prod.mk.injEq]
      exact ⟨(firmId, ⟨l, f, b⟩), hmem, rfl, rfl, rfl, rfl⟩

/-- C15 at the reachable state after the two Sells of firms 3000 and 1000. -/
theorem C15_snapshot_order_witness :
    Reachable twoSells ∧ print twoSells = [(1000, 1, 0, 0), (3000, 1, 0, 0)] ∧
      ((print twoSells).map Prod.fst).Pairwise (fun a b => a < b) :=
  ⟨⟨_, twoSells_eq⟩, rfl, (C15_snapshot_order twoSells ⟨_, twoSells_eq⟩).1⟩

/-! ## The book stays in the order of `Order::operator<` -/

theorem Order.lt_iff (a b : Order) :
    a.lt b = true ↔ b.ID < a.ID ∨ (b.ID = a.ID ∧ b.symbol.data < a.symbol.data) := by
  unfold Order.lt
  by_cases h : b.ID = a.ID
  · simp [h]
  · simp only [h, if_false, decide_eq_true_eq, false_and, or_false]

theorem Order.lt_transitive (a b c : Order) (hab : a.lt b = true) (hbc : b.lt c = true) :
    a.lt c = true := by
  rw [Order.lt_iff] at hab hbc ⊢
  rcases hab with h1 | ⟨h1, h1s⟩ <;> rcases hbc with h2 | ⟨h2, h2s⟩
  · left; omega
  · left; omega
  · left; omega
  · right
    exact ⟨h2.trans h1, lt_trans h2s h1s⟩

theorem Order.lt_of_not_lt (o x : Order) (h1 : o.lt x = false) (h2 : x.equiv o = false) :
    x.lt o = true := by
  unfold Order.equiv at h2
  rw [h1] at h2
  simpa using h2

theorem bookSorted_insertPos (o : Order) (q : List Order) (hs : BookSorted q)
    (hne : ∀ x ∈ q, x.equiv o = false) : BookSorted (insertPos o q) := by
  induction q with
  | nil => simp [insertPos, BookSorted]
  | cons x xs ih =>
    have hx : x.equiv o = false := hne x (List.mem_cons_self _ _)
    have hxs : ∀ y ∈ xs, y.equiv o = false := fun y hy => hne y (List.mem_cons_of_mem _ hy)
    simp only [BookSorted, List.pairwise_cons] at hs
    obtain ⟨hhead, htail⟩ := hs
    unfold insertPos
    split
    · rename_i hlt
      simp only [BookSorted, List.pairwise_cons]
      refine ⟨?_, hhead, htail⟩
      intro y hy
      rcases List.mem_cons.mp hy with rfl | hy
      · exact hlt
      · exact Order.lt_transitive o x y hlt (hhead y hy)
    · rename_i hnlt
      have hnlt' : o.lt x = false := by simpa using hnlt
      simp only [BookSorted, List.pairwise_cons]
      refine ⟨?_, ih htail hxs⟩
      intro y hy
      rcases List.mem_cons.mp ((insertPos_perm o xs).mem_iff.mp hy) with rfl | hy
      · exact Order.lt_of_not_lt _ x hnlt' hx
      · exact hhead y hy

theorem bookSorted_eraseIdx (q : List Order) (it : Nat) (hs : BookSorted q) :
    BookSorted (q.eraseIdx it) :=
  List.Pairwise.sublist (List.eraseIdx_sublist q it) hs

theorem bookSorted_onNewOrder (me : MatchingEngine) (firmId : Nat) (symbol : String)
    (side : Char) (price : ℚ) (h : BookSorted me.orderQueue) :
    BookSorted (onNewOrder me firmId symbol side price).orderQueue := by
  rcases onNewOrder_cases me firmId symbol side price with
    ⟨-, e⟩ | ⟨h0, -, e⟩ | ⟨-, it, c, -, -, -, e⟩
  · rw [e]; exact h
  · rw [e]
    apply bookSorted_insertPos _ _ h
    intro x hx
    rw [equiv_order]
    exact (setCount_eq_zero_iff _ _ _).mp h0 x hx
  · rw [e]
    exact bookSorted_eraseIdx _ it h

theorem bookSorted_step (me : MatchingEngine) (e : Event) (h : BookSorted me.orderQueue) :
    BookSorted (step me e).orderQueue := by
  cases e with
  | N firmId symbol side price => exact bookSorted_onNewOrder me _ _ _ _ h
  | M firmId symbol price =>
    show BookSorted (onModify me firmId symbol price).orderQueue
    cases hs : scan (isOrderOf firmId symbol) me.orderQueue with
    | none => rw [onModify_absent me _ _ _ hs]; exact h
    | some r =>
      obtain ⟨it, c⟩ := r
      rw [onModify_found me _ _ _ it c hs]
      exact bookSorted_onNewOrder _ _ _ _ _ (bookSorted_eraseIdx _ it h)
  | C firmId symbol =>
    show BookSorted (onCancel me firmId symbol).orderQueue
    cases hs : scan (isOrderOf firmId symbol) me.orderQueue with
    | none => rw [onCancel_absent me _ _ hs]; exact h
    | some r =>
      obtain ⟨it, c⟩ := r
      rw [onCancel_found me _ _ it c hs]
      exact bookSorted_eraseIdx _ it h

theorem bookSorted_of_reachable (me : MatchingEngine) (h : Reachable me) :
    BookSorted me.orderQueue :=
  reachable_induction (fun me => BookSorted me.orderQueue)
    (by simp [BookSorted, MatchingEngine.empty]) bookSorted_step me h

/-- C19 (scan order): in every reachable state the book is in the order of
`Order::operator<`: larger firm id first and, for the same firm, larger symbol
first. So the candidate at which the scan of `onNewOrder(owner, symbol, side,
price)` stops is a resting order with that symbol and a different side, and
every other such order has a strictly smaller owner id; and the scan finds a
candidate exactly when such an order exists. -/
theorem C19_scan_order (me : MatchingEngine) (symbol : String) (side : Char)
    (h : Reachable me) :
    me.orderQueue.Pairwise
        (fun a b => b.ID < a.ID ∨ (b.ID = a.ID ∧ b.symbol.data < a.symbol.data)) ∧
      (∀ it c, scan (isCounterparty symbol side) me.orderQueue = some (it, c) →
        c ∈ me.orderQueue ∧ c.symbol = symbol ∧ c.side ≠ side ∧
          ∀ y ∈ me.orderQueue, y.symbol = symbol → y.side ≠ side → y = c ∨ y.ID < c.ID) ∧
      ((∃ it c, scan (isCounterparty symbol side) me.orderQueue = some (it, c)) ↔
        ∃ y ∈ me.orderQueue, y.symbol = symbol ∧ y.side ≠ side) := by
  have hs := bookSorted_of_reachable me h
  refine ⟨?_, ?_, ?_⟩
  · exact List.Pairwise.imp (fun hab => (Order.lt_iff _ _).mp hab) hs
  · intro it c hsc
    obtain ⟨l1, l2, hq, hl1, hc, -⟩ := scan_eq_some _ _ it c hsc
    have hcs : c.symbol = symbol ∧ c.side ≠ side := by simpa [isCounterparty] using hc
    refine ⟨scan_mem _ _ it c hsc, hcs.1, hcs.2, ?_⟩
    intro y hy hsym hside
    have hpy : isCounterparty symbol side y = true := by simp [isCounterparty, hsym, hside]
    rw [hq] at hy
    rcases List.mem_append.mp hy with h1 | h2
    · rw [hl1 y h1] at hpy
      exact absurd hpy Bool.false_ne_true
    · rcases List.mem_cons.mp h2 with rfl | h3
      · left; rfl
      · right
        unfold BookSorted at hs
        rw [hq, List.pairwise_append] at hs
        have hlt := (List.pairwise_cons.mp hs.2.1).1 y h3
        rcases (Order.lt_iff c y).mp hlt with hid | ⟨-, hsl⟩
        · exact hid
        · rw [hsym, hcs.1] at hsl
          exact absurd hsl (lt_irrefl _)
  · constructor
    · rintro ⟨it, c, hsc⟩
      obtain ⟨-, -, -, -, hc, -⟩ := scan_eq_some _ _ it c hsc
      have hcs : c.symbol = symbol ∧ c.side ≠ side := by simpa [isCounterparty] using hc
      exact ⟨c, scan_mem _ _ it c hsc, hcs⟩
    · rintro ⟨y, hy, hsym, hside⟩
      cases hsc : scan (isCounterparty symbol side) me.orderQueue with
      | none =>
        have := (scan_eq_none_iff _ _).mp hsc y hy
        simp [isCounterparty, hsym, hside] at this
      | some r => exact ⟨r.1, r.2, rfl⟩

/-- C19 at the reachable state with the Sells of firms 3000 and 1000 for "X":
the candidate of a Buy is the Sell of firm 3000. -/
theorem C19_scan_order_witness :
    Reachable twoSells ∧
      scan (isCounterparty "X" 'B') twoSells.orderQueue = some (0, ⟨3000, "X", 200, 'S'⟩) ∧
      ∀ y ∈ twoSells.orderQueue, y.symbol = "X" → y.side ≠ 'B' →
        y = ⟨3000, "X", 200, 'S'⟩ ∨ y.ID < (⟨3000, "X", 200, 'S'⟩ : Order).ID :=
  ⟨⟨_, twoSells_eq⟩, by decide,
    ((C19_scan_order twoSells "X" 'B' ⟨_, twoSells_eq⟩).2.1 0 ⟨3000, "X", 200, 'S'⟩
      (by decide)).2.2.2⟩

/-! ## Sums over the ledger -/

theorem map_entry_of_absent (fl : List (Nat × Firm)) (firmId : Nat) (m : Firm → Firm)
    (h : ∀ x ∈ fl, x.1 ≠ firmId) :
    fl.map (fun e => if e.1 = firmId then (e.1, m e.2) else e) = fl := by
  induction fl with
  | nil => rfl
  | cons x xs ih =>
    have hx : x.1 ≠ firmId := h x (List.mem_cons_self _ _)
    simp only [List.map_cons, hx, if_false]
    rw [ih (fun y hy => h y (List.mem_cons_of_mem _ hy))]

theorem sum_map_entry {α : Type} [AddCommGroup α] (g : Firm → α) (fl : List (Nat × Firm))
    (firmId : Nat) (m : Firm → Firm) (F : Firm) (hs : LedgerSorted fl)
    (hl : lookup fl firmId = some F) :
    ((fl.map (fun e => if e.1 = firmId then (e.1, m e.2) else e)).map
        (fun e => g e.2)).sum =
      (fl.map (fun e => g e.2)).sum + (g (m F) - g F) := by
  induction fl with
  | nil => simp [lookup] at hl
  | cons x xs ih =>
    simp only [LedgerSorted, List.map_cons, List.pairwise_cons] at hs
    obtain ⟨hhead, htail⟩ := hs
    by_cases hx : x.1 = firmId
    · have hF : x.2 = F := by
        simpa [lookup, List.find?_cons, hx] using hl
      have habs : ∀ y ∈ xs, y.1 ≠ firmId := by
        intro y hy e
        have := hhead y.1 (List.mem_map.mpr ⟨y, hy, rfl⟩)
        omega
      rw [List.map_cons, if_pos hx, map_entry_of_absent xs firmId m habs]
      simp only [List.map_cons, List.sum_cons, hF]
      abel
    · have hb : (x.1 == firmId) = false := by simpa using hx
      have hl' : lookup xs firmId = some F := by
        unfold lookup at hl ⊢
        rw [List.find?_cons, hb] at hl
        exact hl
      rw [List.map_cons, if_neg hx]
      simp only [List.map_cons, List.sum_cons]
      rw [ih htail hl']
      abel

theorem sum_getFirm {α : Type} [AddCommGroup α] (g : Firm → α) (hg : g Firm.init = 0)
    (fl : List (Nat × Firm)) (firmId : Nat) :
    ((getFirm fl firmId).map (fun e => g e.2)).sum = (fl.map (fun e => g e.2)).sum := by
  unfold getFirm mapInsert
  by_cases hc : mapCount fl firmId = true
  · simp [hc]
  · have h' : mapCount fl firmId = false := by simpa using hc
    simp only [h', Bool.not_false, if_true, Bool.false_eq_true, if_false]
    rw [((mapInsertPos_perm (firmId, Firm.init) fl).map (fun e => g e.2)).sum_eq]
    simp [hg]

theorem sum_callFirm {α : Type} [AddCommGroup α] (g : Firm → α) (hg : g Firm.init = 0)
    (fl : List (Nat × Firm)) (firmId : Nat) (m : Firm → Firm) (hs : LedgerSorted fl) :
    ((callFirm fl firmId m).map (fun e => g e.2)).sum =
      (fl.map (fun e => g e.2)).sum + (g (m (firmOf fl firmId)) - g (firmOf fl firmId)) := by
  unfold callFirm
  rw [sum_map_entry g (getFirm fl firmId) firmId m (firmOf fl firmId)
    (ledgerSorted_getFirm fl firmId hs) (lookup_getFirm_self fl firmId), sum_getFirm g hg]

theorem balanceSum_callFirm (fl : List (Nat × Firm)) (firmId : Nat) (m : Firm → Firm)
    (hs : LedgerSorted fl) :
    balanceSum (callFirm fl firmId m) =
      balanceSum fl +
        ((m (firmOf fl firmId)).totalBalance - (firmOf fl firmId).totalBalance) :=
  sum_callFirm Firm.totalBalance rfl fl firmId m hs

theorem filledSum_callFirm (fl : List (Nat × Firm)) (firmId : Nat) (m : Firm → Firm)
    (hs : LedgerSorted fl) :
    filledSum (callFirm fl firmId m) =
      filledSum fl +
        ((m (firmOf fl firmId)).filledOrders - (firmOf fl firmId).filledOrders) :=
  sum_callFirm Firm.filledOrders rfl fl firmId m hs

/-- One call of `onNewOrder` keeps the sum of the balances and adds 0 or 2 to the
sum of `filledOrders`. -/
theorem sums_onNewOrder (me : MatchingEngine) (firmId : Nat) (symbol : String)
    (side : Char) (price : ℚ) (hs : LedgerSorted me.FirmList) :
    balanceSum (onNewOrder me firmId symbol side price).FirmList = balanceSum me.FirmList ∧
      (filledSum (onNewOrder me firmId symbol side price).FirmList = filledSum me.FirmList ∨
        filledSum (onNewOrder me firmId symbol side price).FirmList =
          filledSum me.FirmList + 2) := by
  rcases onNewOrder_cases me firmId symbol side price with
    ⟨-, e⟩ | ⟨-, -, e⟩ | ⟨-, it, c, -, -, -, e⟩
  · rw [e]; exact ⟨rfl, Or.inl rfl⟩
  · rw [e]
    refine ⟨?_, Or.inl ?_⟩
    · rw [balanceSum_callFirm _ _ _ hs]; simp [Firm.newOrder]
    · rw [filledSum_callFirm _ _ _ hs]; simp [Firm.newOrder]
  · rw [e]
    have h1 := ledgerSorted_callFirm me.FirmList firmId Firm.newOrder hs
    have h2 := ledgerSorted_callFirm _ firmId
      (Firm.completeOrder (price * (flip side : ℚ))) h1
    refine ⟨?_, Or.inr ?_⟩
    · rw [balanceSum_callFirm _ _ _ h2, balanceSum_callFirm _ _ _ h1,
        balanceSum_callFirm _ _ _ hs]
      simp only [Firm.newOrder, Firm.completeOrder]
      ring
    · rw [filledSum_callFirm _ _ _ h2, filledSum_callFirm _ _ _ h1,
        filledSum_callFirm _ _ _ hs]
      simp only [Firm.newOrder, Firm.completeOrder]
      ring

theorem sums_cancel (fl : List (Nat × Firm)) (firmId : Nat) (hs : LedgerSorted fl) :
    balanceSum (callFirm fl firmId Firm.cancelOrder) = balanceSum fl ∧
      filledSum (callFirm fl firmId Firm.cancelOrder) = filledSum fl := by
  rw [balanceSum_callFirm _ _ _ hs, filledSum_callFirm _ _ _ hs]
  simp [Firm.cancelOrder]

theorem sums_step (me : MatchingEngine) (e : Event) (hs : LedgerSorted me.FirmList) :
    balanceSum (step me e).FirmList = balanceSum me.FirmList ∧
      (filledSum (step me e).FirmList = filledSum me.FirmList ∨
        filledSum (step me e).FirmList = filledSum me.FirmList + 2) := by
  cases e with
  | N firmId symbol side price => exact sums_onNewOrder me _ _ _ _ hs
  | M firmId symbol price =>
    show balanceSum (onModify me firmId symbol price).FirmList = balanceSum me.FirmList ∧
      (filledSum (onModify me firmId symbol price).FirmList = filledSum me.FirmList ∨
        filledSum (onModify me firmId symbol price).FirmList = filledSum me.FirmList + 2)
    cases hsc : scan (isOrderOf firmId symbol) me.orderQueue with
    | none => rw [onModify_absent me _ _ _ hsc]; exact ⟨rfl, Or.inl rfl⟩
    | some r =>
      obtain ⟨it, c⟩ := r
      rw [onModify_found me _ _ _ it c hsc]
      have hc := sums_cancel me.FirmList firmId hs
      have hn := sums_onNewOrder
        ⟨callFirm me.FirmList firmId Firm.cancelOrder, me.orderQueue.eraseIdx it⟩
        firmId symbol c.side price (ledgerSorted_callFirm _ _ _ hs)
      simp only [hc.1, hc.2] at hn
      exact hn
  | C firmId symbol =>
    show balanceSum (onCancel me firmId symbol).FirmList = balanceSum me.FirmList ∧
      (filledSum (onCancel me firmId symbol).FirmList = filledSum me.FirmList ∨
        filledSum (onCancel me firmId symbol).FirmList = filledSum me.FirmList + 2)
    cases hsc : scan (isOrderOf firmId symbol) me.orderQueue with
    | none => rw [onCancel_absent me _ _ hsc]; exact ⟨rfl, Or.inl rfl⟩
    | some r =>
      obtain ⟨it, c⟩ := r
      rw [onCancel_found me _ _ it c hsc]
      have hc := sums_cancel me.FirmList firmId hs
      exact ⟨hc.1, Or.inl hc.2⟩

/-- With balances added exactly, the balances of every reachable state sum to 0
and its `filledOrders` sum to an even number. -/
theorem exact_zero_sum (me : MatchingEngine) (h : Reachable me) :
    balanceSum me.FirmList = 0 ∧ Even (filledSum me.FirmList) := by
  have hinv := reachable_induction
    (fun me => LedgerSorted me.FirmList ∧ balanceSum me.FirmList = 0 ∧
      Even (filledSum me.FirmList))
    (by simp [LedgerSorted, balanceSum, filledSum, MatchingEngine.empty])
    (by
      intro me e ⟨hs, hb, hf⟩
      obtain ⟨h1, h2⟩ := sums_step me e hs
      refine ⟨ledger_step LedgerSorted ledgerSorted_callFirm me e hs, by rw [h1, hb], ?_⟩
      rcases h2 with h2 | h2
      · rw [h2]; exact hf
      · rw [h2]
        obtain ⟨k, hk⟩ := hf
        exact ⟨k + 1, by omega⟩)
    me h
  exact hinv.2

/-! ## Creation of ledger entries -/

theorem lookup_callFirm_ne_none (fl : List (Nat × Firm)) (firmId p : Nat) (m : Firm → Firm)
    (h : lookup fl p ≠ none) : lookup (callFirm fl firmId m) p ≠ none := by
  by_cases hp : p = firmId
  · subst hp
    rw [lookup_callFirm_self]
    simp
  · rw [lookup_callFirm_ne _ _ _ _ hp]
    exact h

/-- No event removes a ledger entry. -/
theorem lookup_step_ne_none (me : MatchingEngine) (e : Event) (p : Nat)
    (h : lookup me.FirmList p ≠ none) : lookup (step me e).FirmList p ≠ none :=
  ledger_step (fun fl => lookup fl p ≠ none)
    (fun fl firmId m h => lookup_callFirm_ne_none fl firmId p m h) me e h

theorem ownersListed_onNewOrder (me : MatchingEngine) (firmId : Nat) (symbol : String)
    (side : Char) (price : ℚ) (h : OwnersListed me) :
    OwnersListed (onNewOrder me firmId symbol side price) := by
  rcases onNewOrder_cases me firmId symbol side price with
    ⟨-, e⟩ | ⟨-, -, e⟩ | ⟨-, it, c, -, -, -, e⟩
  · rw [e]; exact h
  · rw [e]
    intro x hx
    rcases List.mem_cons.mp ((insertPos_perm _ _).mem_iff.mp hx) with rfl | hx
    · show lookup (callFirm me.FirmList firmId Firm.newOrder) firmId ≠ none
      rw [lookup_callFirm_self]
      simp
    · exact lookup_callFirm_ne_none _ _ _ _ (h x hx)
  · rw [e]
    intro x hx
    have hx' : x ∈ me.orderQueue := (List.eraseIdx_sublist _ it).subset hx
    exact lookup_callFirm_ne_none _ _ _ _
      (lookup_callFirm_ne_none _ _ _ _ (lookup_callFirm_ne_none _ _ _ _ (h x hx')))

theorem ownersListed_erase_cancel (me : MatchingEngine) (firmId : Nat) (it : Nat)
    (h : OwnersListed me) :
    OwnersListed
      ⟨callFirm me.FirmList firmId Firm.cancelOrder, me.orderQueue.eraseIdx it⟩ := by
  intro x hx
  have hx' : x ∈ me.orderQueue := (List.eraseIdx_sublist _ it).subset hx
  exact lookup_callFirm_ne_none _ _ _ _ (h x hx')

theorem ownersListed_step (me : MatchingEngine) (e : Event) (h : OwnersListed me) :
    OwnersListed (step me e) := by
  cases e with
  | N firmId symbol side price => exact ownersListed_onNewOrder me _ _ _ _ h
  | M firmId symbol price =>
    show OwnersListed (onModify me firmId symbol price)
    cases hs : scan (isOrderOf firmId symbol) me.orderQueue with
    | none => rw [onModify_absent me _ _ _ hs]; exact h
    | some r =>
      obtain ⟨it, c⟩ := r
      rw [onModify_found me _ _ _ it c hs]
      exact ownersListed_onNewOrder _ _ _ _ _ (ownersListed_erase_cancel me firmId it h)
  | C firmId symbol =>
    show OwnersListed (onCancel me firmId symbol)
    cases hs : scan (isOrderOf firmId symbol) me.orderQueue with
    | none => rw [onCancel_absent me _ _ hs]; exact h
    | some r =>
      obtain ⟨it, c⟩ := r
      rw [onCancel_found me _ _ it c hs]
      exact ownersListed_erase_cancel me firmId it h

theorem ownersListed_of_reachable (me : MatchingEngine) (h : Reachable me) :
    OwnersListed me :=
  reachable_induction OwnersListed
    (by intro x hx; simp [MatchingEngine.empty] at hx) ownersListed_step me h

/-- A firm without a ledger entry has no order in the book. -/
theorem scan_none_of_unlisted (me : MatchingEngine) (p : Nat) (symbol : String)
    (ho : OwnersListed me) (hl : lookup me.FirmList p = none) :
    scan (isOrderOf p symbol) me.orderQueue = none ∧
      setCount me.orderQueue (Order.key p symbol) = 0 := by
  have hall : ∀ x ∈ me.orderQueue, ¬ (x.ID = p ∧ x.symbol = symbol) := by
    intro x hx hp
    have := ho x hx
    rw [hp.1] at this
    exact this hl
  refine ⟨scan_isOrderOf_none _ _ _ hall, ?_⟩
  rw [setCount_eq_zero_iff]
  intro x hx
  have := hall x hx
  rw [← isOrderOf_iff] at this
  simpa using this

/-- C16 as stated fails: on the freshly constructed engine `onCancel(5, "X")`
and `onModify(5, "X", 1)` name firm 5 and leave the ledger without an entry for
it. -/
theorem C16_counterexample :
    Reachable MatchingEngine.empty ∧
      lookup (onCancel MatchingEngine.empty 5 "X").FirmList 5 = none ∧
      lookup (onModify MatchingEngine.empty 5 "X" 1).FirmList 5 = none ∧
      onCancel MatchingEngine.empty 5 "X" = MatchingEngine.empty ∧
      onModify MatchingEngine.empty 5 "X" 1 = MatchingEngine.empty :=
  ⟨⟨[], rfl⟩, rfl, rfl, rfl, rfl⟩

/-- C16 (amended): in every reachable state, after `onNewOrder` naming firm `p`
the ledger has an entry for `p`, and if `p` had no entry before, the entry is
the zeroed `Firm()` with only the mutations of this event applied (`newOrder`
when the order rests; `newOrder` then `completeOrder(price * flip)` when it
matches). `onModify` and `onCancel` naming `p` create no entry: `p` has an entry
after them exactly when it had one before, and when `p` has no entry they
change nothing. -/
theorem C16_lazy_creation (me : MatchingEngine) (p : Nat) (symbol : String) (side : Char)
    (price : ℚ) (h : Reachable me) :
    lookup (onNewOrder me p symbol side price).FirmList p ≠ none ∧
      (lookup me.FirmList p = none →
        (newOrderMatch me p symbol side price = none →
          lookup (onNewOrder me p symbol side price).FirmList p =
            some (Firm.newOrder Firm.init)) ∧
        (newOrderMatch me p symbol side price ≠ none →
          lookup (onNewOrder me p symbol side price).FirmList p =
            some (Firm.completeOrder (price * (flip side : ℚ))
              (Firm.newOrder Firm.init)))) ∧
      (lookup (onModify me p symbol price).FirmList p = none ↔
        lookup me.FirmList p = none) ∧
      (lookup (onCancel me p symbol).FirmList p = none ↔ lookup me.FirmList p = none) ∧
      (lookup me.FirmList p = none →
        onModify me p symbol price = me ∧ onCancel me p symbol = me) := by
  have ho := ownersListed_of_reachable me h
  have hnoop : lookup me.FirmList p = none →
      onModify me p symbol price = me ∧ onCancel me p symbol = me := by
    intro hl
    have hs := (scan_none_of_unlisted me p symbol ho hl).1
    exact ⟨onModify_absent me p symbol price hs, onCancel_absent me p symbol hs⟩
  refine ⟨?_, ?_, ?_, ?_, hnoop⟩
  · rcases onNewOrder_cases me p symbol side price with
      ⟨h0, e⟩ | ⟨-, -, e⟩ | ⟨-, it, c, -, -, -, e⟩
    · rw [e]
      intro hl
      exact h0 (scan_none_of_unlisted me p symbol ho hl).2
    · rw [e]
      show lookup (callFirm me.FirmList p Firm.newOrder) p ≠ none
      rw [lookup_callFirm_self]
      simp
    · rw [e]
      apply lookup_callFirm_ne_none
      rw [lookup_callFirm_self]
      simp
  · intro hl
    have h0 := (scan_none_of_unlisted me p symbol ho hl).2
    have hinit : firmOf me.FirmList p = Firm.init := by simp [firmOf, hl]
    rcases onNewOrder_cases me p symbol side price with
      ⟨h0', -⟩ | ⟨-, hm, e⟩ | ⟨-, it, c, hs, -, hm, e⟩
    · exact absurd h0 h0'
    · refine ⟨fun _ => ?_, fun hne => absurd hm hne⟩
      rw [e]
      show lookup (callFirm me.FirmList p Firm.newOrder) p = _
      rw [lookup_callFirm_self]
      show some (Firm.newOrder (firmOf me.FirmList p)) = _
      rw [hinit]
    · refine ⟨fun hn => ?_, fun _ => ?_⟩
      · rw [hm] at hn
        exact absurd hn (by simp)
      · have hne := (candidate_facts _ p symbol side it c h0 hs).1
        rw [e]
        show lookup (callFirm _ c.ID _) p = _
        rw [lookup_callFirm_ne _ _ _ _ (fun e => hne e.symm), lookup_callFirm_self]
        show some (Firm.completeOrder _ (firmOf (callFirm me.FirmList p Firm.newOrder) p)) = _
        rw [firmOf_callFirm, if_pos rfl, hinit]
  · constructor
    · intro hafter
      by_contra hbefore
      exact lookup_step_ne_none me (.M p symbol price) p hbefore hafter
    · intro hl
      rw [(hnoop hl).1]
      exact hl
  · constructor
    · intro hafter
      by_contra hbefore
      exact lookup_step_ne_none me (.C p symbol) p hbefore hafter
    · intro hl
      rw [(hnoop hl).2]
      exact hl

/-- C16 (amended) at the reachable state with one Sell of firm 1 at 10, for firm
2, which has no ledger entry. -/
theorem C16_lazy_creation_witness :
    Reachable sellAt10 ∧ lookup sellAt10.FirmList 2 = none ∧
      lookup (onNewOrder sellAt10 2 "X" 'B' 12).FirmList 2 ≠ none ∧
      (lookup (onCancel sellAt10 2 "X").FirmList 2 = none ↔
        lookup sellAt10.FirmList 2 = none) :=
  have h := C16_lazy_creation sellAt10 2 "X" 'B' 12 reachable_sellAt10
  ⟨reachable_sellAt10, by decide, h.1, h.2.2.2.1⟩

/-! ## Values of the `float` addition -/

theorem f32round_two_pow_24 : f32round 16777216 = 16777216 := by
  have h : f32mag 16777216 1 = (8388608, 1) := by decide
  norm_num [f32round, h, f32max]

theorem f32round_neg_two_pow_24 : f32round (-16777216) = -16777216 := by
  have h : f32mag 16777216 1 = (8388608, 1) := by decide
  norm_num [f32round, h, f32max]

theorem f32round_neg_one : f32round (-1) = -1 := by
  have h : f32mag 1 1 = (8388608, -23) := by decide
  norm_num [f32round, h, f32max]

/-- The sum `2 ^ 24 + 1` lies halfway between two binary32 values and rounds to
the even one, `2 ^ 24`. -/
theorem f32round_two_pow_24_add_one : f32round 16777217 = 16777216 := by
  have h : f32mag 16777217 1 = (8388608, 1) := by decide
  norm_num [f32round, h, f32max]

theorem bigBalance_eq :
    runF32 MatchingEngine.empty
        [.N 1 "X" 'S' 16777216, .N 2 "X" 'B' 16777216, .N 1 "X" 'S' 1] = bigBalance := by
  simp [runF32, stepF32, onNewOrderF32, MatchingEngine.empty, setCount, scan, setInsert,
    insertPos, callFirm, getFirm, mapCount, mapInsert, mapInsertPos, Firm.newOrder,
    Firm.completeOrderF32, Firm.init, bigBalance, Order.equiv, Order.lt, Order.key,
    isCounterparty, flip, f32add, f32round_two_pow_24, f32round_neg_two_pow_24]

theorem bigBalanceRounded_eq :
    stepF32 bigBalance (.N 3 "X" 'B' 1) = bigBalanceRounded := by
  simp [stepF32, onNewOrderF32, setCount, scan, setInsert,
    insertPos, callFirm, getFirm, mapCount, mapInsert, mapInsertPos, Firm.newOrder,
    Firm.completeOrderF32, Firm.init, bigBalance, bigBalanceRounded, Order.equiv, Order.lt,
    Order.key, isCounterparty, flip, f32add, f32round_neg_one]
  norm_num [f32round_two_pow_24_add_one]

/-! ## The paths through `onNewOrderF32` -/

/-- The three ways `onNewOrderF32` can end. -/
theorem onNewOrderF32_cases (me : MatchingEngine) (firmId : Nat) (symbol : String)
    (side : Char) (price : ℚ) :
    (setCount me.orderQueue (Order.key firmId symbol) ≠ 0 ∧
      newOrderMatch me firmId symbol side price = none ∧
      onNewOrderF32 me firmId symbol side price = me) ∨
    (setCount me.orderQueue (Order.key firmId symbol) = 0 ∧
      newOrderMatch me firmId symbol side price = none ∧
      onNewOrderF32 me firmId symbol side price =
        ⟨callFirm me.FirmList firmId Firm.newOrder,
          insertPos ⟨firmId, symbol, price, side⟩ me.orderQueue⟩) ∨
    (setCount me.orderQueue (Order.key firmId symbol) = 0 ∧
      ∃ it c, scan (isCounterparty symbol side) me.orderQueue = some (it, c) ∧
        ¬ c.price * (flip side : ℚ) < price * (flip side : ℚ) ∧
        newOrderMatch me firmId symbol side price = some (firmId, c.ID) ∧
        onNewOrderF32 me firmId symbol side price =
          ⟨callFirm
              (callFirm (callFirm me.FirmList firmId Firm.newOrder) firmId
                (Firm.completeOrderF32 (price * (flip side : ℚ))))
              c.ID (Firm.completeOrderF32 (-price * (flip side : ℚ))),
            me.orderQueue.eraseIdx it⟩) := by
  by_cases h : setCount me.orderQueue (Order.key firmId symbol) = 0
  · right
    have hi := setInsert_of_absent me.orderQueue ⟨firmId, symbol, price, side⟩
      ((setCount_eq_zero_iff _ _ _).mp h)
    cases hs : scan (isCounterparty symbol side) me.orderQueue with
    | none =>
      left
      exact ⟨h, by simp [newOrderMatch, h, hs], by simp [onNewOrderF32, h, hs, hi]⟩
    | some r =>
      obtain ⟨it, c⟩ := r
      by_cases hp : c.price * (flip side : ℚ) < price * (flip side : ℚ)
      · left
        exact ⟨h, by simp [newOrderMatch, h, hs, hp], by simp [onNewOrderF32, h, hs, hi, hp]⟩
      · right
        exact ⟨h, it, c, rfl, hp, by simp [newOrderMatch, h, hs, hp],
          by simp [onNewOrderF32, h, hs, hp]⟩
  · left
    exact ⟨h, by simp [newOrderMatch, h], by simp [onNewOrderF32, h]⟩

/-- The ledger entry of every firm after the three ledger calls of a match. -/
theorem firmOf_three (fl : List (Nat × Firm)) (firmId cid : Nat) (m1 m2 m3 : Firm → Firm)
    (p : Nat) (hne : cid ≠ firmId) :
    firmOf (callFirm (callFirm (callFirm fl firmId m1) firmId m2) cid m3) p =
      if p = firmId then m2 (m1 (firmOf fl firmId))
      else if p = cid then m3 (firmOf fl cid)
      else firmOf fl p := by
  simp only [firmOf_callFirm]
  by_cases hpf : p = firmId
  · subst hpf
    have : ¬ p = cid := fun e => hne e.symm
    simp [this]
  · by_cases hpc : p = cid
    · subst hpc
      simp [hpf]
    · simp [hpf, hpc]

/-- Ledger effect of the matching path of `onNewOrderF32`. -/
theorem crossF32_ledger_effect (me : MatchingEngine) (firmId : Nat) (symbol : String)
    (side : Char) (price : ℚ) (it : Nat) (c : Order)
    (h0 : setCount me.orderQueue (Order.key firmId symbol) = 0)
    (hs : scan (isCounterparty symbol side) me.orderQueue = some (it, c))
    (hx : ¬ c.price * (flip side : ℚ) < price * (flip side : ℚ)) :
    (onNewOrderF32 me firmId symbol side price).orderQueue = me.orderQueue.eraseIdx it ∧
      c.ID ≠ firmId ∧
      firmOf (onNewOrderF32 me firmId symbol side price).FirmList firmId =
        ⟨liveOf me firmId, filledOf me firmId + 1,
          f32add (balanceOf me firmId) (price * (flip side : ℚ))⟩ ∧
      firmOf (onNewOrderF32 me firmId symbol side price).FirmList c.ID =
        ⟨liveOf me c.ID - 1, filledOf me c.ID + 1,
          f32add (balanceOf me c.ID) (-price * (flip side : ℚ))⟩ ∧
      ∀ p, p ≠ firmId → p ≠ c.ID →
        lookup (onNewOrderF32 me firmId symbol side price).FirmList p =
          lookup me.FirmList p := by
  have hne := (candidate_facts _ firmId symbol side it c h0 hs).1
  rcases onNewOrderF32_cases me firmId symbol side price with
    ⟨h0', -, -⟩ | ⟨-, hm, -⟩ | ⟨-, it', c', hs', -, -, e⟩
  · exact absurd h0 h0'
  · simp [newOrderMatch, h0, hs, hx] at hm
  · rw [hs] at hs'
    simp only [Option.some.injEq, Prod.mk.injEq] at hs'
    obtain ⟨rfl, rfl⟩ := hs'
    rw [e]
    refine ⟨rfl, hne, ?_, ?_, ?_⟩
    · simp [firmOf_three _ _ _ _ _ _ _ hne, Firm.completeOrderF32, Firm.newOrder, liveOf,
        filledOf, balanceOf]
    · simp [firmOf_three _ _ _ _ _ _ _ hne, hne, Firm.completeOrderF32, liveOf, filledOf,
        balanceOf]
    · intro p hpf hpc
      exact lookup_cross _ _ _ _ _ _ p hpf hpc

/-! ## Effect of a match -/

/-- C4 as stated fails: in the reachable state `bigBalance`, where firm 1 has
the balance `2 ^ 24` and a resting Sell at 1, `onNewOrder(3, "X", Buy, 1)`
matches that Sell; `-price * flip` is 1, but the `float` sum `2 ^ 24 + 1` is
`2 ^ 24`, so the balance of the candidate's owner does not change by
`-price * flip`. -/
theorem C4_counterexample :
    ReachableF32 bigBalance ∧
      setCount bigBalance.orderQueue (Order.key 3 "X") = 0 ∧
      scan (isCounterparty "X" 'B') bigBalance.orderQueue = some (0, ⟨1, "X", 1, 'S'⟩) ∧
      ¬ (1 : ℚ) * (flip 'B' : ℚ) < 1 * (flip 'B' : ℚ) ∧
      balanceOf bigBalance 1 = 16777216 ∧
      balanceOf bigBalance 1 - 1 * (flip 'B' : ℚ) = 16777217 ∧
      balanceOf (onNewOrderF32 bigBalance 3 "X" 'B' 1) 1 = 16777216 ∧
      balanceOf (onNewOrderF32 bigBalance 3 "X" 'B' 1) 1 ≠
        balanceOf bigBalance 1 - 1 * (flip 'B' : ℚ) := by
  have e : onNewOrderF32 bigBalance 3 "X" 'B' 1 = bigBalanceRounded := bigBalanceRounded_eq
  have h1 : balanceOf bigBalance 1 = 16777216 := by
    simp [balanceOf, firmOf, lookup, bigBalance]
  have h2 : balanceOf bigBalanceRounded 1 = 16777216 := by
    simp [balanceOf, firmOf, lookup, bigBalanceRounded]
  refine ⟨⟨_, bigBalance_eq⟩, by decide, by decide, by norm_num [flip], h1, ?_, ?_, ?_⟩
  · rw [h1]; norm_num [flip]
  · rw [e, h2]
  · rw [e, h2, h1]; norm_num [flip]

/-- C4 (amended): when `onNewOrder(firmId, symbol, side, price)` matches the
candidate `c` found at position `it`, the new book is the old book with `c`
removed and holds no order for `(firmId, symbol)`; the candidate's owner is
another firm; the incoming firm's `filledOrders` grows by 1 and its
`liveOrders` is unchanged, the owner's `filledOrders` grows by 1 and its
`liveOrders` falls by 1; the ledger entry of every other firm is unchanged. The
incoming firm's balance becomes the `float` sum of its balance and
`price * flip`, the owner's the `float` sum of its balance and `-price * flip`
(for sums in the finite range of binary32): the balances change by exactly
`+price * flip` and `-price * flip` when these additions are exact. -/
theorem C4_match_effect (me : MatchingEngine) (firmId : Nat) (symbol : String)
    (side : Char) (price : ℚ) (it : Nat) (c : Order)
    (h0 : setCount me.orderQueue (Order.key firmId symbol) = 0)
    (hs : scan (isCounterparty symbol side) me.orderQueue = some (it, c))
    (hx : ¬ c.price * (flip side : ℚ) < price * (flip side : ℚ)) :
    me.orderQueue[it]? = some c ∧
      (onNewOrderF32 me firmId symbol side price).orderQueue = me.orderQueue.eraseIdx it ∧
      restingCount (onNewOrderF32 me firmId symbol side price) firmId symbol = 0 ∧
      c.ID ≠ firmId ∧
      filledOf (onNewOrderF32 me firmId symbol side price) firmId = filledOf me firmId + 1 ∧
      liveOf (onNewOrderF32 me firmId symbol side price) firmId = liveOf me firmId ∧
      filledOf (onNewOrderF32 me firmId symbol side price) c.ID = filledOf me c.ID + 1 ∧
      liveOf (onNewOrderF32 me firmId symbol side price) c.ID = liveOf me c.ID - 1 ∧
      (∀ p, p ≠ firmId → p ≠ c.ID →
        lookup (onNewOrderF32 me firmId symbol side price).FirmList p =
          lookup me.FirmList p) ∧
      (InF32Range (balanceOf me firmId + price * (flip side : ℚ)) →
        balanceOf (onNewOrderF32 me firmId symbol side price) firmId =
          f32add (balanceOf me firmId) (price * (flip side : ℚ))) ∧
      (InF32Range (balanceOf me c.ID - price * (flip side : ℚ)) →
        balanceOf (onNewOrderF32 me firmId symbol side price) c.ID =
          f32add (balanceOf me c.ID) (-price * (flip side : ℚ))) ∧
      (f32add (balanceOf me firmId) (price * (flip side : ℚ)) =
          balanceOf me firmId + price * (flip side : ℚ) →
        balanceOf (onNewOrderF32 me firmId symbol side price) firmId =
          balanceOf me firmId + price * (flip side : ℚ)) ∧
      (f32add (balanceOf me c.ID) (-price * (flip side : ℚ)) =
          balanceOf me c.ID - price * (flip side : ℚ) →
        balanceOf (onNewOrderF32 me firmId symbol side price) c.ID =
          balanceOf me c.ID - price * (flip side : ℚ)) := by
  obtain ⟨hq, hne, hf, hc, hoth⟩ :=
    crossF32_ledger_effect me firmId symbol side price it c h0 hs hx
  have hbf : balanceOf (onNewOrderF32 me firmId symbol side price) firmId =
      f32add (balanceOf me firmId) (price * (flip side : ℚ)) := by
    simp only [balanceOf, hf]
  have hbc : balanceOf (onNewOrderF32 me firmId symbol side price) c.ID =
      f32add (balanceOf me c.ID) (-price * (flip side : ℚ)) := by
    simp only [balanceOf, hc]
  refine ⟨scan_getElem _ _ it c hs, hq, ?_, hne, ?_, ?_, ?_, ?_, hoth, fun _ => hbf,
    fun _ => hbc, ?_, ?_⟩
  · have hz := restingCount_zero_of_count _ firmId symbol h0
    have hle := (List.eraseIdx_sublist me.orderQueue it).countP_le (isOrderOf firmId symbol)
    simp only [restingCount, hq]
    omega
  · simp only [filledOf, hf]
  · simp only [liveOf, hf]
  · simp only [filledOf, hc]
  · simp only [liveOf, hc]
  · intro hex
    rw [hbf, hex]
  · intro hex
    rw [hbc, hex]

/-- C4 (amended) at a book holding a Sell of firm 1 at 10, for an incoming Buy of
firm 2 at 12. -/
theorem C4_match_effect_witness :
    setCount sellAt10.orderQueue (Order.key 2 "X") = 0 ∧
      scan (isCounterparty "X" 'B') sellAt10.orderQueue = some (0, ⟨1, "X", 10, 'S'⟩) ∧
      ¬ (10 : ℚ) * (flip 'B' : ℚ) < 12 * (flip 'B' : ℚ) ∧
      (onNewOrderF32 sellAt10 2 "X" 'B' 12).orderQueue = sellAt10.orderQueue.eraseIdx 0 ∧
      filledOf (onNewOrderF32 sellAt10 2 "X" 'B' 12) 2 = filledOf sellAt10 2 + 1 ∧
      filledOf (onNewOrderF32 sellAt10 2 "X" 'B' 12) 1 = filledOf sellAt10 1 + 1 :=
  have h := C4_match_effect sellAt10 2 "X" 'B' 12 0 ⟨1, "X", 10, 'S'⟩ (by decide) (by decide)
    (by norm_num [flip])
  ⟨by decide, by decide, by norm_num [flip], h.2.1, h.2.2.2.2.1, h.2.2.2.2.2.2.1⟩

/-! ## Conservation and lock-step fills -/

/-- Fills and balances across one call of `onNewOrderF32`. -/
theorem onNewOrderF32_fills (me : MatchingEngine) (firmId : Nat) (symbol : String)
    (side : Char) (price : ℚ) :
    (∀ a b, newOrderMatch me firmId symbol side price = some (a, b) →
        a ≠ b ∧
        balanceOf (onNewOrderF32 me firmId symbol side price) a =
          f32add (balanceOf me a) (price * (flip side : ℚ)) ∧
        balanceOf (onNewOrderF32 me firmId symbol side price) b =
          f32add (balanceOf me b) (-(price * (flip side : ℚ))) ∧
        filledOf (onNewOrderF32 me firmId symbol side price) a = filledOf me a + 1 ∧
        filledOf (onNewOrderF32 me firmId symbol side price) b = filledOf me b + 1 ∧
        ∀ p, p ≠ a → p ≠ b →
          filledOf (onNewOrderF32 me firmId symbol side price) p = filledOf me p) ∧
      (newOrderMatch me firmId symbol side price = none →
        ∀ p, filledOf (onNewOrderF32 me firmId symbol side price) p = filledOf me p) := by
  rcases onNewOrderF32_cases me firmId symbol side price with
    ⟨-, hm, e⟩ | ⟨-, hm, e⟩ | ⟨h0, it, c, hs, hx, hm, -⟩
  · rw [hm, e]
    simp
  · rw [hm, e]
    refine ⟨by simp, ?_⟩
    intro _ p
    simp only [filledOf, firmOf_callFirm]
    split
    · subst_vars; rfl
    · rfl
  · obtain ⟨-, hne, hf, hc, hoth⟩ :=
      crossF32_ledger_effect me firmId symbol side price it c h0 hs hx
    rw [hm]
    refine ⟨?_, by simp⟩
    intro a b hab
    simp only [Option.some.injEq, Prod.mk.injEq] at hab
    obtain ⟨rfl, rfl⟩ := hab
    refine ⟨fun e => hne e.symm, ?_, ?_, ?_, ?_, ?_⟩
    · simp only [balanceOf, hf]
    · simp only [balanceOf, hc, neg_mul]
    · simp only [filledOf, hf]
    · simp only [filledOf, hc]
    · intro p hpa hpb
      simp only [filledOf, firmOf, hoth p hpa hpb]

/-- Fills and balances across one event, with the `float` addition. -/
theorem stepF32_fills (me : MatchingEngine) (e : Event) :
    (∀ a b, eventMatch me e = some (a, b) →
        a ≠ b ∧
        balanceOf (stepF32 me e) a = f32add (balanceOf me a) (eventAmount me e) ∧
        balanceOf (stepF32 me e) b = f32add (balanceOf me b) (-eventAmount me e) ∧
        filledOf (stepF32 me e) a = filledOf me a + 1 ∧
        filledOf (stepF32 me e) b = filledOf me b + 1 ∧
        ∀ p, p ≠ a → p ≠ b → filledOf (stepF32 me e) p = filledOf me p) ∧
      (eventMatch me e = none → ∀ p, filledOf (stepF32 me e) p = filledOf me p) := by
  cases e with
  | N firmId symbol side price => exact onNewOrderF32_fills me firmId symbol side price
  | M firmId symbol price =>
    show (∀ a b, eventMatch me (.M firmId symbol price) = some (a, b) →
        a ≠ b ∧
        balanceOf (onModifyF32 me firmId symbol price) a =
          f32add (balanceOf me a) (eventAmount me (.M firmId symbol price)) ∧
        balanceOf (onModifyF32 me firmId symbol price) b =
          f32add (balanceOf me b) (-eventAmount me (.M firmId symbol price)) ∧
        filledOf (onModifyF32 me firmId symbol price) a = filledOf me a + 1 ∧
        filledOf (onModifyF32 me firmId symbol price) b = filledOf me b + 1 ∧
        ∀ p, p ≠ a → p ≠ b →
          filledOf (onModifyF32 me firmId symbol price) p = filledOf me p) ∧
      (eventMatch me (.M firmId symbol price) = none →
        ∀ p, filledOf (onModifyF32 me firmId symbol price) p = filledOf me p)
    cases hs : scan (isOrderOf firmId symbol) me.orderQueue with
    | none => simp [eventMatch, onModifyF32, hs]
    | some r =>
      obtain ⟨it, c⟩ := r
      have hmod : onModifyF32 me firmId symbol price =
          onNewOrderF32
            ⟨callFirm me.FirmList firmId Firm.cancelOrder, me.orderQueue.eraseIdx it⟩
            firmId symbol c.side price := by
        simp [onModifyF32, hs]
      have hem : eventMatch me (.M firmId symbol price) =
          newOrderMatch
            ⟨callFirm me.FirmList firmId Firm.cancelOrder, me.orderQueue.eraseIdx it⟩
            firmId symbol c.side price := by
        simp [eventMatch, hs]
      have ham : eventAmount me (.M firmId symbol price) = price * (flip c.side : ℚ) := by
        simp [eventAmount, hs]
      rw [hmod, hem, ham]
      have h := onNewOrderF32_fills
        ⟨callFirm me.FirmList firmId Firm.cancelOrder, me.orderQueue.eraseIdx it⟩
        firmId symbol c.side price
      have hf := fun p => filledOf_cancel me.FirmList me.orderQueue
        (me.orderQueue.eraseIdx it) firmId p
      have hb := fun p => balanceOf_cancel me.FirmList me.orderQueue
        (me.orderQueue.eraseIdx it) firmId p
      simp only [hf, hb] at h
      exact h
  | C firmId symbol =>
    refine ⟨by simp [eventMatch], ?_⟩
    intro _ p
    show filledOf (onCancel me firmId symbol) p = filledOf me p
    cases hs : scan (isOrderOf firmId symbol) me.orderQueue with
    | none => rw [onCancel_absent me _ _ hs]
    | some r =>
      obtain ⟨it, c⟩ := r
      rw [onCancel_found me _ _ it c hs]
      exact filledOf_cancel me.FirmList me.orderQueue _ firmId p

theorem f32round_twelve : f32round 12 = 12 := by
  have h : f32mag 12 1 = (12582912, -20) := by decide
  norm_num [f32round, h, f32max]

theorem f32round_neg_twelve : f32round (-12) = -12 := by
  have h : f32mag 12 1 = (12582912, -20) := by decide
  norm_num [f32round, h, f32max]

/-- C5 as stated fails: in the reachable state `bigBalance` the event
`N 3 "X" 'B' 1` matches firms 3 and 1; the balance of firm 3 changes by `-1` and
the balance of firm 1, `2 ^ 24`, does not change, so the two balance deltas sum
to `-1`. -/
theorem C5_counterexample :
    ReachableF32 bigBalance ∧ eventMatch bigBalance (.N 3 "X" 'B' 1) = some (3, 1) ∧
      balanceOf (stepF32 bigBalance (.N 3 "X" 'B' 1)) 3 - balanceOf bigBalance 3 = -1 ∧
      balanceOf (stepF32 bigBalance (.N 3 "X" 'B' 1)) 1 - balanceOf bigBalance 1 = 0 ∧
      (balanceOf (stepF32 bigBalance (.N 3 "X" 'B' 1)) 3 - balanceOf bigBalance 3) +
          (balanceOf (stepF32 bigBalance (.N 3 "X" 'B' 1)) 1 - balanceOf bigBalance 1) ≠
        0 := by
  have h3 : balanceOf (stepF32 bigBalance (.N 3 "X" 'B' 1)) 3 - balanceOf bigBalance 3 =
      -1 := by
    rw [bigBalanceRounded_eq]
    simp [balanceOf, firmOf, lookup, bigBalance, bigBalanceRounded, Firm.init]
  have h1 : balanceOf (stepF32 bigBalance (.N 3 "X" 'B' 1)) 1 - balanceOf bigBalance 1 =
      0 := by
    rw [bigBalanceRounded_eq]
    simp [balanceOf, firmOf, lookup, bigBalance, bigBalanceRounded]
  refine ⟨⟨_, bigBalance_eq⟩, ?_, h3, h1, ?_⟩
  · simp [eventMatch, newOrderMatch, bigBalance, setCount, Order.equiv, Order.lt, Order.key,
      scan, isCounterparty, flip]
  · rw [h3, h1]
    norm_num

/-- C5 (amended): for every event, from every state (so from every reachable
one): if the event produces a match between firms `a` and `b`, then `a ≠ b`,
the balance of `a` becomes the `float` sum of its balance and the amount
`price * flip` and the balance of `b` the `float` sum of its balance and the
negated amount (for sums in the finite range of binary32), so that the two
balance deltas sum to exactly 0 when both additions are exact; the
`filledOrders` of `a` and of `b` each grow by exactly 1 and no other firm's
`filledOrders` changes. If the event produces no match, no firm's
`filledOrders` changes; in both cases no `filledOrders` decreases. -/
theorem C5_conservation (me : MatchingEngine) (e : Event) :
    (∀ a b, eventMatch me e = some (a, b) →
        a ≠ b ∧
        (InF32Range (balanceOf me a + eventAmount me e) →
          balanceOf (stepF32 me e) a = f32add (balanceOf me a) (eventAmount me e)) ∧
        (InF32Range (balanceOf me b - eventAmount me e) →
          balanceOf (stepF32 me e) b = f32add (balanceOf me b) (-eventAmount me e)) ∧
        (f32add (balanceOf me a) (eventAmount me e) = balanceOf me a + eventAmount me e →
          f32add (balanceOf me b) (-eventAmount me e) = balanceOf me b - eventAmount me e →
          (balanceOf (stepF32 me e) a - balanceOf me a) +
            (balanceOf (stepF32 me e) b - balanceOf me b) = 0) ∧
        filledOf (stepF32 me e) a = filledOf me a + 1 ∧
        filledOf (stepF32 me e) b = filledOf me b + 1 ∧
        ∀ p, p ≠ a → p ≠ b → filledOf (stepF32 me e) p = filledOf me p) ∧
      (eventMatch me e = none → ∀ p, filledOf (stepF32 me e) p = filledOf me p) ∧
      ∀ p, filledOf me p ≤ filledOf (stepF32 me e) p := by
  have h := stepF32_fills me e
  refine ⟨?_, h.2, ?_⟩
  · intro a b hm
    obtain ⟨hne, hba, hbb, hfa, hfb, hoth⟩ := h.1 a b hm
    refine ⟨hne, fun _ => hba, fun _ => hbb, ?_, hfa, hfb, hoth⟩
    intro hea heb
    rw [hba, hbb, hea, heb]
    ring
  · intro p
    cases hm : eventMatch me e with
    | none => exact le_of_eq (h.2 hm p).symm
    | some r =>
      obtain ⟨a, b⟩ := r
      obtain ⟨-, -, -, hf1, hf2, hoth⟩ := h.1 a b hm
      by_cases hpa : p = a
      · subst hpa; omega
      · by_cases hpb : p = b
        · subst hpb; omega
        · exact le_of_eq (hoth p hpa hpb).symm

/-- C5 (amended) at the state with one Sell of firm 1 at 10: the event
`N 2 "X" 'B' 12` matches firms 2 and 1, both additions are exact and the two
balance deltas sum to 0. -/
theorem C5_conservation_witness :
    eventMatch sellAt10 (.N 2 "X" 'B' 12) = some (2, 1) ∧
      f32add (balanceOf sellAt10 2) (eventAmount sellAt10 (.N 2 "X" 'B' 12)) =
        balanceOf sellAt10 2 + eventAmount sellAt10 (.N 2 "X" 'B' 12) ∧
      f32add (balanceOf sellAt10 1) (-eventAmount sellAt10 (.N 2 "X" 'B' 12)) =
        balanceOf sellAt10 1 - eventAmount sellAt10 (.N 2 "X" 'B' 12) ∧
      (balanceOf (stepF32 sellAt10 (.N 2 "X" 'B' 12)) 2 - balanceOf sellAt10 2) +
          (balanceOf (stepF32 sellAt10 (.N 2 "X" 'B' 12)) 1 - balanceOf sellAt10 1) = 0 ∧
      filledOf (stepF32 sellAt10 (.N 2 "X" 'B' 12)) 2 = filledOf sellAt10 2 + 1 ∧
      filledOf (stepF32 sellAt10 (.N 2 "X" 'B' 12)) 1 = filledOf sellAt10 1 + 1 :=
  have hm : eventMatch sellAt10 (.N 2 "X" 'B' 12) = some (2, 1) := by
    simp [eventMatch, newOrderMatch, sellAt10, setCount, Order.equiv, Order.lt, Order.key,
      scan, isCounterparty, flip]
    norm_num
  have h2 : f32add (balanceOf sellAt10 2) (eventAmount sellAt10 (.N 2 "X" 'B' 12)) =
      balanceOf sellAt10 2 + eventAmount sellAt10 (.N 2 "X" 'B' 12) := by
    simp [f32add, balanceOf, firmOf, lookup, sellAt10, Firm.init, eventAmount, flip,
      f32round_neg_twelve]
  have h1 : f32add (balanceOf sellAt10 1) (-eventAmount sellAt10 (.N 2 "X" 'B' 12)) =
      balanceOf sellAt10 1 - eventAmount sellAt10 (.N 2 "X" 'B' 12) := by
    simp [f32add, balanceOf, firmOf, lookup, sellAt10, eventAmount, flip, f32round_twelve]
  have h := (C5_conservation sellAt10 (.N 2 "X" 'B' 12)).1 2 1 hm
  ⟨hm, h2, h1, h.2.2.2.1 h2 h1, h.2.2.2.2.1, h.2.2.2.2.2.1⟩

/-! ## Sums over the ledger, with the `float` addition -/

/-- A property of the ledger that every `getFirm(id).m()` keeps is kept by every
event of the engine with the `float` addition. -/
theorem ledger_stepF32 (P : List (Nat × Firm) → Prop)
    (hP : ∀ fl firmId m, P fl → P (callFirm fl firmId m)) (me : MatchingEngine) (e : Event)
    (h : P me.FirmList) : P (stepF32 me e).FirmList := by
  have hnew : ∀ (me : MatchingEngine) firmId symbol side price, P me.FirmList →
      P (onNewOrderF32 me firmId symbol side price).FirmList := by
    intro me firmId symbol side price h
    rcases onNewOrderF32_cases me firmId symbol side price with
      ⟨-, -, e⟩ | ⟨-, -, e⟩ | ⟨-, it, c, -, -, -, e⟩
    · rw [e]; exact h
    · rw [e]; exact hP _ _ _ h
    · rw [e]; exact hP _ _ _ (hP _ _ _ (hP _ _ _ h))
  cases e with
  | N firmId symbol side price => exact hnew me _ _ _ _ h
  | M firmId symbol price =>
    show P (onModifyF32 me firmId symbol price).FirmList
    cases hs : scan (isOrderOf firmId symbol) me.orderQueue with
    | none => simp only [onModifyF32, hs]; exact h
    | some r =>
      obtain ⟨it, c⟩ := r
      simp only [onModifyF32, hs]
      exact hnew _ _ _ _ _ (hP _ _ _ h)
  | C firmId symbol =>
    show P (onCancel me firmId symbol).FirmList
    cases hs : scan (isOrderOf firmId symbol) me.orderQueue with
    | none => rw [onCancel_absent me _ _ hs]; exact h
    | some r =>
      obtain ⟨it, c⟩ := r
      rw [onCancel_found me _ _ it c hs]
      exact hP _ _ _ h

/-- One call of `onNewOrderF32` adds 0 or 2 to the sum of `filledOrders`. -/
theorem filledSum_onNewOrderF32 (me : MatchingEngine) (firmId : Nat) (symbol : String)
    (side : Char) (price : ℚ) (hs : LedgerSorted me.FirmList) :
    filledSum (onNewOrderF32 me firmId symbol side price).FirmList = filledSum me.FirmList ∨
      filledSum (onNewOrderF32 me firmId symbol side price).FirmList =
        filledSum me.FirmList + 2 := by
  rcases onNewOrderF32_cases me firmId symbol side price with
    ⟨-, -, e⟩ | ⟨-, -, e⟩ | ⟨-, it, c, -, -, -, e⟩
  · rw [e]; exact Or.inl rfl
  · rw [e]
    refine Or.inl ?_
    rw [filledSum_callFirm _ _ _ hs]; simp [Firm.newOrder]
  · rw [e]
    have h1 := ledgerSorted_callFirm me.FirmList firmId Firm.newOrder hs
    have h2 := ledgerSorted_callFirm _ firmId
      (Firm.completeOrderF32 (price * (flip side : ℚ))) h1
    refine Or.inr ?_
    rw [filledSum_callFirm _ _ _ h2, filledSum_callFirm _ _ _ h1,
      filledSum_callFirm _ _ _ hs]
    simp only [Firm.newOrder, Firm.completeOrderF32]
    ring

theorem filledSum_stepF32 (me : MatchingEngine) (e : Event)
    (hs : LedgerSorted me.FirmList) :
    filledSum (stepF32 me e).FirmList = filledSum me.FirmList ∨
      filledSum (stepF32 me e).FirmList = filledSum me.FirmList + 2 := by
  cases e with
  | N firmId symbol side price => exact filledSum_onNewOrderF32 me _ _ _ _ hs
  | M firmId symbol price =>
    show filledSum (onModifyF32 me firmId symbol price).FirmList = filledSum me.FirmList ∨
      filledSum (onModifyF32 me firmId symbol price).FirmList = filledSum me.FirmList + 2
    cases hsc : scan (isOrderOf firmId symbol) me.orderQueue with
    | none => simp [onModifyF32, hsc]
    | some r =>
      obtain ⟨it, c⟩ := r
      simp only [onModifyF32, hsc]
      have hc := sums_cancel me.FirmList firmId hs
      have hn := filledSum_onNewOrderF32
        ⟨callFirm me.FirmList firmId Firm.cancelOrder, me.orderQueue.eraseIdx it⟩
        firmId symbol c.side price (ledgerSorted_callFirm _ _ _ hs)
      simp only [hc.2] at hn
      exact hn
  | C firmId symbol =>
    show filledSum (onCancel me firmId symbol).FirmList = filledSum me.FirmList ∨
      filledSum (onCancel me firmId symbol).FirmList = filledSum me.FirmList + 2
    cases hsc : scan (isOrderOf firmId symbol) me.orderQueue with
    | none => rw [onCancel_absent me _ _ hsc]; exact Or.inl rfl
    | some r =>
      obtain ⟨it, c⟩ := r
      rw [onCancel_found me _ _ it c hsc]
      exact Or.inl (sums_cancel me.FirmList firmId hs).2

theorem filledSum_even_runF32 (msgStream : List Event) (me : MatchingEngine)
    (hs : LedgerSorted me.FirmList) (hf : Even (filledSum me.FirmList)) :
    Even (filledSum (runF32 me msgStream).FirmList) := by
  induction msgStream generalizing me with
  | nil => exact hf
  | cons e es ih =>
    apply ih (stepF32 me e) (ledger_stepF32 LedgerSorted ledgerSorted_callFirm me e hs)
    rcases filledSum_stepF32 me e hs with h2 | h2
    · rw [h2]; exact hf
    · rw [h2]
      obtain ⟨k, hk⟩ := hf
      exact ⟨k + 1, by omega⟩

/-- A stream on which no `float` addition rounds reaches the state that exact
addition reaches. -/
theorem runF32_of_exactRun (msgStream : List Event) (me : MatchingEngine)
    (h : exactRun me msgStream = true) : runF32 me msgStream = run me msgStream := by
  induction msgStream generalizing me with
  | nil => rfl
  | cons e es ih =>
    simp only [exactRun, Bool.and_eq_true, decide_eq_true_eq] at h
    show runF32 (stepF32 me e) es = run (step me e) es
    rw [ih (stepF32 me e) h.2, h.1]

/-- C20 as stated fails: the state `bigBalanceRounded`, reached by `N 1 "X" 'S'
16777216`, `N 2 "X" 'B' 16777216`, `N 1 "X" 'S' 1`, `N 3 "X" 'B' 1`, has the
balances `2 ^ 24`, `-2 ^ 24` and `-1`, which sum to `-1`. -/
theorem C20_counterexample :
    runF32 MatchingEngine.empty
        [.N 1 "X" 'S' 16777216, .N 2 "X" 'B' 16777216, .N 1 "X" 'S' 1, .N 3 "X" 'B' 1] =
        bigBalanceRounded ∧
      ReachableF32 bigBalanceRounded ∧
      bigBalanceRounded.FirmList =
        [(1, ⟨0, 2, 16777216⟩), (2, ⟨0, 1, -16777216⟩), (3, ⟨0, 1, -1⟩)] ∧
      balanceSum bigBalanceRounded.FirmList = -1 ∧
      balanceSum bigBalanceRounded.FirmList ≠ 0 := by
  have hrun : runF32 MatchingEngine.empty
      [.N 1 "X" 'S' 16777216, .N 2 "X" 'B' 16777216, .N 1 "X" 'S' 1, .N 3 "X" 'B' 1] =
      bigBalanceRounded := by
    have : runF32 MatchingEngine.empty
        [.N 1 "X" 'S' 16777216, .N 2 "X" 'B' 16777216, .N 1 "X" 'S' 1, .N 3 "X" 'B' 1] =
        stepF32 (runF32 MatchingEngine.empty
          [.N 1 "X" 'S' 16777216, .N 2 "X" 'B' 16777216, .N 1 "X" 'S' 1])
          (.N 3 "X" 'B' 1) := rfl
    rw [this, bigBalance_eq, bigBalanceRounded_eq]
  have hsum : balanceSum bigBalanceRounded.FirmList = -1 := by
    norm_num [balanceSum, bigBalanceRounded]
  refine ⟨hrun, ⟨_, hrun⟩, rfl, hsum, ?_⟩
  rw [hsum]
  norm_num

/-- C20 (amended): in every state reachable from the freshly constructed engine
by a finite stream of events, the `filledOrders` of all ledger entries sum to an
even number; and the balances of all ledger entries sum to exactly 0 when no
`float` addition of the stream has rounded. -/
theorem C20_zero_sum (msgStream : List Event) :
    Even (filledSum (runF32 MatchingEngine.empty msgStream).FirmList) ∧
      (exactRun MatchingEngine.empty msgStream = true →
        balanceSum (runF32 MatchingEngine.empty msgStream).FirmList = 0) := by
  refine ⟨?_, ?_⟩
  · apply filledSum_even_runF32
    · simp [LedgerSorted, MatchingEngine.empty]
    · simp [filledSum, MatchingEngine.empty]
  · intro h
    rw [runF32_of_exactRun msgStream _ h]
    exact (exact_zero_sum _ ⟨msgStream, rfl⟩).1

theorem exactRun_sell_buy :
    exactRun MatchingEngine.empty [.N 1 "X" 'S' 10, .N 2 "X" 'B' 12] = true := by
  have h1 : stepF32 MatchingEngine.empty (.N 1 "X" 'S' 10) = sellAt10 := by
    simp [stepF32, onNewOrderF32, MatchingEngine.empty, setCount, scan, setInsert, insertPos,
      callFirm, getFirm, mapCount, mapInsert, mapInsertPos, Firm.newOrder, Firm.init, sellAt10]
  have h1' : step MatchingEngine.empty (.N 1 "X" 'S' 10) = sellAt10 := sellAt10_eq
  have h2 : stepF32 sellAt10 (.N 2 "X" 'B' 12) = step sellAt10 (.N 2 "X" 'B' 12) := by
    simp [stepF32, step, onNewOrderF32, onNewOrder, sellAt10, setCount, Order.equiv, Order.lt,
      Order.key, scan, isCounterparty, flip, callFirm, getFirm, mapCount, mapInsert,
      mapInsertPos, Firm.newOrder, Firm.completeOrder, Firm.completeOrderF32, Firm.init,
      f32add, f32round_twelve, f32round_neg_twelve]
  simp [exactRun, h1, h1', h2]

/-- C20 (amended) at the stream `N 1 "X" 'S' 10`, `N 2 "X" 'B' 12`, which matches
with exact additions. -/
theorem C20_zero_sum_witness :
    exactRun MatchingEngine.empty [.N 1 "X" 'S' 10, .N 2 "X" 'B' 12] = true ∧
      Even (filledSum
        (runF32 MatchingEngine.empty [.N 1 "X" 'S' 10, .N 2 "X" 'B' 12]).FirmList) ∧
      balanceSum
        (runF32 MatchingEngine.empty [.N 1 "X" 'S' 10, .N 2 "X" 'B' 12]).FirmList = 0 :=
  ⟨exactRun_sell_buy, (C20_zero_sum [.N 1 "X" 'S' 10, .N 2 "X" 'B' 12]).1,
    (C20_zero_sum [.N 1 "X" 'S' 10, .N 2 "X" 'B' 12]).2 exactRun_sell_buy⟩

/-! ## Exact and `float` addition differ in the balances only -/

theorem counters_mapCount (fl fl' : List (Nat × Firm)) (firmId : Nat)
    (h : counters fl = counters fl') : mapCount fl firmId = mapCount fl' firmId := by
  induction fl generalizing fl' with
  | nil =>
    cases fl' with
    | nil => rfl
    | cons y ys => simp [counters] at h
  | cons x xs ih =>
    cases fl' with
    | nil => simp [counters] at h
    | cons y ys =>
      simp only [counters, List.map_cons, List.cons.injEq, Prod.mk.injEq] at h
      have := ih ys h.2
      simp only [mapCount, List.any_cons] at this ⊢
      rw [this, h.1.1]

theorem counters_mapInsertPos (e e' : Nat × Firm) (fl fl' : List (Nat × Firm))
    (he : e.1 = e'.1 ∧ e.2.liveOrders = e'.2.liveOrders ∧
      e.2.filledOrders = e'.2.filledOrders)
    (h : counters fl = counters fl') :
    counters (mapInsertPos e fl) = counters (mapInsertPos e' fl') := by
  induction fl generalizing fl' with
  | nil =>
    cases fl' with
    | nil => simp [mapInsertPos, counters, he.1, he.2.1, he.2.2]
    | cons y ys => simp [counters] at h
  | cons x xs ih =>
    cases fl' with
    | nil => simp [counters] at h
    | cons y ys =>
      have h' := h
      simp only [counters, List.map_cons, List.cons.injEq, Prod.mk.injEq] at h'
      have ih' := ih ys h'.2
      unfold mapInsertPos
      rw [← he.1, ← h'.1.1]
      split
      · simp only [counters, List.map_cons, List.cons.injEq, Prod.mk.injEq]
        exact ⟨⟨he.1, he.2.1, he.2.2⟩, h'.1, h'.2⟩
      · simp only [counters, List.map_cons, List.cons.injEq, Prod.mk.injEq]
        exact ⟨h'.1, ih'⟩

theorem counters_getFirm (fl fl' : List (Nat × Firm)) (firmId : Nat)
    (h : counters fl = counters fl') :
    counters (getFirm fl firmId) = counters (getFirm fl' firmId) := by
  unfold getFirm mapInsert
  rw [counters_mapCount fl fl' firmId h]
  by_cases hc : mapCount fl' firmId = true
  · simp [hc, h]
  · have h' : mapCount fl' firmId = false := by simpa using hc
    simp only [h', Bool.not_false, if_true, Bool.false_eq_true, if_false]
    exact counters_mapInsertPos _ _ fl fl' ⟨rfl, rfl, rfl⟩ h

theorem counters_map_entry (fl fl' : List (Nat × Firm)) (firmId : Nat) (m m' : Firm → Firm)
    (hm : ∀ f f' : Firm, f.liveOrders = f'.liveOrders → f.filledOrders = f'.filledOrders →
      (m f).liveOrders = (m' f').liveOrders ∧ (m f).filledOrders = (m' f').filledOrders)
    (h : counters fl = counters fl') :
    counters (fl.map (fun e => if e.1 = firmId then (e.1, m e.2) else e)) =
      counters (fl'.map (fun e => if e.1 = firmId then (e.1, m' e.2) else e)) := by
  induction fl generalizing fl' with
  | nil =>
    cases fl' with
    | nil => rfl
    | cons y ys => simp [counters] at h
  | cons x xs ih =>
    cases fl' with
    | nil => simp [counters] at h
    | cons y ys =>
      have h' := h
      simp only [counters, List.map_cons, List.cons.injEq, Prod.mk.injEq] at h'
      have ih' := ih ys h'.2
      simp only [counters] at ih'
      simp only [counters, List.map_cons, List.cons.injEq]
      refine ⟨?_, ih'⟩
      rw [← h'.1.1]
      by_cases hx : x.1 = firmId
      · simp only [hx, if_true, Prod.mk.injEq, true_and]
        exact hm x.2 y.2 h'.1.2.1 h'.1.2.2
      · simp only [hx, if_false, Prod.mk.injEq]
        exact h'.1

theorem counters_callFirm (fl fl' : List (Nat × Firm)) (firmId : Nat) (m m' : Firm → Firm)
    (hm : ∀ f f' : Firm, f.liveOrders = f'.liveOrders → f.filledOrders = f'.filledOrders →
      (m f).liveOrders = (m' f').liveOrders ∧ (m f).filledOrders = (m' f').filledOrders)
    (h : counters fl = counters fl') :
    counters (callFirm fl firmId m) = counters (callFirm fl' firmId m') := by
  unfold callFirm
  exact counters_map_entry _ _ firmId m m' hm (counters_getFirm fl fl' firmId h)

theorem counters_newOrder (f f' : Firm) (h1 : f.liveOrders = f'.liveOrders)
    (h2 : f.filledOrders = f'.filledOrders) :
    (Firm.newOrder f).liveOrders = (Firm.newOrder f').liveOrders ∧
      (Firm.newOrder f).filledOrders = (Firm.newOrder f').filledOrders := by
  simp [Firm.newOrder, h1, h2]

theorem counters_cancelOrder (f f' : Firm) (h1 : f.liveOrders = f'.liveOrders)
    (h2 : f.filledOrders = f'.filledOrders) :
    (Firm.cancelOrder f).liveOrders = (Firm.cancelOrder f').liveOrders ∧
      (Firm.cancelOrder f).filledOrders = (Firm.cancelOrder f').filledOrders := by
  simp [Firm.cancelOrder, h1, h2]

theorem counters_completeOrder (a b : ℚ) (f f' : Firm) (h1 : f.liveOrders = f'.liveOrders)
    (h2 : f.filledOrders = f'.filledOrders) :
    (Firm.completeOrderF32 a f).liveOrders = (Firm.completeOrder b f').liveOrders ∧
      (Firm.completeOrderF32 a f).filledOrders = (Firm.completeOrder b f').filledOrders := by
  simp [Firm.completeOrderF32, Firm.completeOrder, h1, h2]

theorem sameButBalance_onNewOrder (s t : MatchingEngine) (firmId : Nat) (symbol : String)
    (side : Char) (price : ℚ) (h : SameButBalance s t) :
    SameButBalance (onNewOrderF32 s firmId symbol side price)
      (onNewOrder t firmId symbol side price) := by
  obtain ⟨hq, hc⟩ := h
  have hnew := counters_callFirm s.FirmList t.FirmList firmId Firm.newOrder Firm.newOrder
    counters_newOrder hc
  by_cases h0 : setCount t.orderQueue (Order.key firmId symbol) = 0
  · have h0s : setCount s.orderQueue (Order.key firmId symbol) = 0 := by rw [hq]; exact h0
    have hi := setInsert_of_absent s.orderQueue ⟨firmId, symbol, price, side⟩
      ((setCount_eq_zero_iff _ _ _).mp h0s)
    cases hs : scan (isCounterparty symbol side) t.orderQueue with
    | none =>
      have hss : scan (isCounterparty symbol side) s.orderQueue = none := by rw [hq]; exact hs
      rw [onNewOrder_no_candidate t _ _ _ _ h0 hs]
      simp only [onNewOrderF32, h0s, hss, hi]
      exact ⟨by simp [hq], by simpa using hnew⟩
    | some r =>
      obtain ⟨it, c⟩ := r
      have hss : scan (isCounterparty symbol side) s.orderQueue = some (it, c) := by
        rw [hq]; exact hs
      by_cases hp : c.price * (flip side : ℚ) < price * (flip side : ℚ)
      · rw [onNewOrder_no_cross t _ _ _ _ it c h0 hs hp]
        simp only [onNewOrderF32, h0s, hss, hi, hp]
        exact ⟨by simp [hq], by simpa using hnew⟩
      · rw [onNewOrder_cross t _ _ _ _ it c h0 hs hp]
        simp only [onNewOrderF32, h0s, hss, hp]
        refine ⟨by simp [hq], ?_⟩
        simp only [ne_eq, not_true_eq_false, if_false]
        exact counters_callFirm _ _ _ _ _ (counters_completeOrder _ _)
          (counters_callFirm _ _ _ _ _ (counters_completeOrder _ _) hnew)
  · have h0s : setCount s.orderQueue (Order.key firmId symbol) ≠ 0 := by rw [hq]; exact h0
    have e : onNewOrderF32 s firmId symbol side price = s := by simp [onNewOrderF32, h0s]
    rw [onNewOrder_duplicate t _ _ _ _ h0, e]
    exact ⟨hq, hc⟩

theorem sameButBalance_step (s t : MatchingEngine) (e : Event) (h : SameButBalance s t) :
    SameButBalance (stepF32 s e) (step t e) := by
  have hq := h.1
  have hcancel : ∀ firmId it, SameButBalance
      ⟨callFirm s.FirmList firmId Firm.cancelOrder, s.orderQueue.eraseIdx it⟩
      ⟨callFirm t.FirmList firmId Firm.cancelOrder, t.orderQueue.eraseIdx it⟩ := by
    intro firmId it
    exact ⟨by simp [hq], counters_callFirm _ _ _ _ _ counters_cancelOrder h.2⟩
  cases e with
  | N firmId symbol side price => exact sameButBalance_onNewOrder s t _ _ _ _ h
  | M firmId symbol price =>
    show SameButBalance (onModifyF32 s firmId symbol price) (onModify t firmId symbol price)
    cases hs : scan (isOrderOf firmId symbol) t.orderQueue with
    | none =>
      rw [onModify_absent t _ _ _ hs]
      have hss : scan (isOrderOf firmId symbol) s.orderQueue = none := by rw [hq]; exact hs
      simp only [onModifyF32, hss]
      exact h
    | some r =>
      obtain ⟨it, c⟩ := r
      rw [onModify_found t _ _ _ it c hs]
      have hss : scan (isOrderOf firmId symbol) s.orderQueue = some (it, c) := by
        rw [hq]; exact hs
      simp only [onModifyF32, hss]
      exact sameButBalance_onNewOrder _ _ _ _ _ _ (hcancel firmId it)
  | C firmId symbol =>
    show SameButBalance (onCancel s firmId symbol) (onCancel t firmId symbol)
    cases hs : scan (isOrderOf firmId symbol) t.orderQueue with
    | none =>
      have hss : scan (isOrderOf firmId symbol) s.orderQueue = none := by rw [hq]; exact hs
      rw [onCancel_absent t _ _ hs, onCancel_absent s _ _ hss]
      exact h
    | some r =>
      obtain ⟨it, c⟩ := r
      have hss : scan (isOrderOf firmId symbol) s.orderQueue = some (it, c) := by
        rw [hq]; exact hs
      rw [onCancel_found t _ _ it c hs, onCancel_found s _ _ it c hss]
      exact hcancel firmId it

/-- After every message stream the engine with the `float` addition and the
engine with exact addition have the same book and the same `liveOrders` and
`filledOrders` in the same ledger entries: they differ in the balances only. -/
theorem sameButBalance_run (msgStream : List Event) (s t : MatchingEngine)
    (h : SameButBalance s t) : SameButBalance (runF32 s msgStream) (run t msgStream) := by
  induction msgStream generalizing s t with
  | nil => exact h
  | cons e es ih => exact ih (stepF32 s e) (step t e) (sameButBalance_step s t e h)

theorem firmOf_of_counters (fl fl' : List (Nat × Firm)) (p : Nat)
    (h : counters fl = counters fl') :
    (firmOf fl p).liveOrders = (firmOf fl' p).liveOrders ∧
      (firmOf fl p).filledOrders = (firmOf fl' p).filledOrders ∧
      (lookup fl p = none ↔ lookup fl' p = none) := by
  induction fl generalizing fl' with
  | nil =>
    cases fl' with
    | nil => simp
    | cons y ys => simp [counters] at h
  | cons x xs ih =>
    cases fl' with
    | nil => simp [counters] at h
    | cons y ys =>
      simp only [counters, List.map_cons, List.cons.injEq, Prod.mk.injEq] at h
      have ih' := ih ys h.2
      by_cases hx : x.1 = p
      · have hy : y.1 = p := h.1.1 ▸ hx
        simp [firmOf, lookup, List.find?_cons, hx, hy, h.1.2.1, h.1.2.2]
      · have hy : ¬ y.1 = p := h.1.1 ▸ hx
        have hbx : (x.1 == p) = false := by simpa using hx
        have hby : (y.1 == p) = false := by simpa using hy
        simp only [firmOf, lookup, List.find?_cons, hbx, hby] at ih' ⊢
        exact ih'

/-- After every message stream from the freshly constructed engine, the engine
with the `float` addition has the book, the `liveOrders`, the `filledOrders`
and the ledger entries of the engine with exact addition. -/
theorem runF32_counters (msgStream : List Event) (p : Nat) :
    (runF32 MatchingEngine.empty msgStream).orderQueue =
        (run MatchingEngine.empty msgStream).orderQueue ∧
      liveOf (runF32 MatchingEngine.empty msgStream) p =
        liveOf (run MatchingEngine.empty msgStream) p ∧
      filledOf (runF32 MatchingEngine.empty msgStream) p =
        filledOf (run MatchingEngine.empty msgStream) p ∧
      (lookup (runF32 MatchingEngine.empty msgStream).FirmList p = none ↔
        lookup (run MatchingEngine.empty msgStream).FirmList p = none) := by
  have h := sameButBalance_run msgStream MatchingEngine.empty MatchingEngine.empty ⟨rfl, rfl⟩
  have hf := firmOf_of_counters _ _ p h.2
  exact ⟨h.1, hf.1, hf.2.1, hf.2.2⟩

/-! ## Further values of the rounding -/

/-- The binary32 value of `0.1`. -/
theorem f32round_tenth : f32round (1 / 10) = 13421773 / 134217728 := by
  have h : f32mag 1 10 = (13421773, -27) := by decide
  have hn : ((1 : ℚ) / 10).num = 1 := by norm_num
  have hd : ((1 : ℚ) / 10).den = 10 := by norm_num
  simp only [f32round, hn, hd]
  norm_num [h, f32max]

set_option maxRecDepth 20000 in
/-- At `2 ^ 128` the rounding overflows and does not return its argument. -/
theorem f32round_overflow :
    f32round 340282366920938463463374607431768211456 = f32max ∧
      f32max ≠ 340282366920938463463374607431768211456 := by
  have h : f32mag 340282366920938463463374607431768211456 1 = (8388608, 105) := by decide
  norm_num [f32round, h, f32max]

end StockChallenge
